import Mathlib

/-!
Verification development for the 2D tensor-network boundary-contraction
engine of `quimb/tensor/tensor_2d.py` (class `TensorNetwork2D` and `PEPS`).

The embedding is shallow: the control flow of the boundary sweep scheduler
(`contract_boundary`), the directional absorption steps
(`_contract_boundary_from_{bottom,top,left,right}_single`), the row/column
canonicalization and compression sweeps, the lattice addressing functions
(`site_tag`, `maybe_convert_coo`), and the PEPS bond-index construction are
translated into executable Lean definitions.

Modelling conventions, stated once here:

* Python ints are `Int`; Python `%` on a positive modulus agrees with
  `Int.emod`.
* A tensor is modelled by the list of lattice site tags it carries
  (`T2D := List (Int × Int)`); a tensor network is a list of tensors.
  This tracks exactly the structure the scheduler claims are about: which
  tensors exist and which coordinate tags each carries.  `contract_` with
  `which='any'` merges all tensors carrying either tag into one tensor
  carrying the union of the tags.  The external-engine calls
  `canonize_between` / `compress_between` act on tensor *data* and bond
  sizes and never create, delete, merge or re-tag tensors, so on this
  structural model they are identities; where a claim is about those sweeps
  themselves (C5, C6, C9) they are modelled separately as the exact list of
  delegated pairwise calls the Python loops emit, folded through an
  arbitrary engine function.
* The unbounded `for direction in cycle(sequence)` loop is modelled by a
  fuel-indexed interpreter `runAux`; theorems exhibit explicit adequate
  fuel.  `nsteps` is a ghost counter of performed directional absorption
  steps; it does not influence control flow.
* `tn.contract(all, optimize='auto-hq')` (exact contraction of the whole
  remaining network into a single result) is `contractAllTensors`, the
  single tensor carrying every remaining tag.
-/

namespace Quimb2D

/-- Integer coordinate pair `(i, j)` of a lattice site. -/
abbrev Coo := Int × Int

/-- `range(lo, hi)` of Python, ascending with step `+1`. -/
def intRange (lo hi : Int) : List Int :=
  (List.range (hi - lo).toNat).map (fun k : Nat => lo + (k : Int))

/-- `range(hi, lo, -1)` of Python, descending with step `-1`. -/
def intRangeDown (hi lo : Int) : List Int :=
  (List.range (hi - lo).toNat).map (fun k : Nat => hi - (k : Int))

theorem mem_intRange {lo hi a : Int} : a ∈ intRange lo hi ↔ lo ≤ a ∧ a < hi := by
  simp only [intRange, List.mem_map, List.mem_range]
  constructor
  · rintro ⟨k, hk, rfl⟩
    omega
  · rintro ⟨h1, h2⟩
    exact ⟨(a - lo).toNat, by omega, by omega⟩

theorem mem_intRangeDown {hi lo a : Int} : a ∈ intRangeDown hi lo ↔ lo < a ∧ a ≤ hi := by
  simp only [intRangeDown, List.mem_map, List.mem_range]
  constructor
  · rintro ⟨k, hk, rfl⟩
    omega
  · rintro ⟨h1, h2⟩
    exact ⟨(hi - a).toNat, by omega, by omega⟩

theorem intRange_self (j : Int) : intRange j j = [] := by
  simp [intRange]

theorem intRangeDown_self (j : Int) : intRangeDown j j = [] := by
  simp [intRangeDown]

/-- `site_tag` on integer arguments: the wrapped coordinate
`(i % Lx, j % Ly)` used as the identity of the site tag
(`TensorNetwork2D.site_tag`). -/
def siteTagCoo (Lx Ly i j : Int) : Coo := (i % Lx, j % Ly)

/-- A tensor, modelled by the site tags it carries. -/
abbrev T2D := List Coo

/-- A 2D tensor network: the collection of its tensors. -/
abbrev TN := List T2D

/-- Whether a tensor carries the site tag `c`. -/
def tensorHas (t : T2D) (c : Coo) : Bool := decide (c ∈ t)

/-- `self.contract_((tag1, tag2), which='any')`: merge every tensor
carrying either tag into a single tensor carrying all their tags. -/
def contractTags2 (tn : TN) (c1 c2 : Coo) : TN :=
  (tn.filter (fun t => !(tensorHas t c1 || tensorHas t c2))) ++
    [(tn.filter (fun t => tensorHas t c1 || tensorHas t c2)).flatten]

/-- `tn.contract(all, optimize='auto-hq')`: exact contraction of every
remaining tensor into one result. -/
def contractAllTensors (tn : TN) : T2D := tn.flatten

/-- One tensor per lattice site `(i, j)`, `0 ≤ i < Lx`, `0 ≤ j < Ly`. -/
def initTN (Lx Ly : Int) : TN :=
  ((intRange 0 Lx).map (fun i => (intRange 0 Ly).map (fun j => ([(i, j)] : T2D)))).flatten

/-- The pairwise contractions emitted by
`_contract_boundary_from_bottom_single`: for `i` in
`range(min xrange, max xrange)` and `j` in
`range(min yrange, max yrange + 1)`, contract the tags of `(i, j)` and
`(i + 1, j)`. -/
def bottomPairs (Lx Ly : Int) (xr yr : Int × Int) : List (Coo × Coo) :=
  ((intRange (min xr.1 xr.2) (max xr.1 xr.2)).map (fun i =>
    (intRange (min yr.1 yr.2) (max yr.1 yr.2 + 1)).map (fun j =>
      (siteTagCoo Lx Ly i j, siteTagCoo Lx Ly (i + 1) j)))).flatten

/-- The pairwise contractions emitted by
`_contract_boundary_from_top_single`: `i` descending in
`range(max xrange, min xrange, -1)`, contracting `(i, j)` with `(i - 1, j)`. -/
def topPairs (Lx Ly : Int) (xr yr : Int × Int) : List (Coo × Coo) :=
  ((intRangeDown (max xr.1 xr.2) (min xr.1 xr.2)).map (fun i =>
    (intRange (min yr.1 yr.2) (max yr.1 yr.2 + 1)).map (fun j =>
      (siteTagCoo Lx Ly i j, siteTagCoo Lx Ly (i - 1) j)))).flatten

/-- The pairwise contractions emitted by
`_contract_boundary_from_left_single`: `j` in
`range(min yrange, max yrange)`, `i` in `range(min xrange, max xrange + 1)`,
contracting `(i, j)` with `(i, j + 1)`. -/
def leftPairs (Lx Ly : Int) (yr xr : Int × Int) : List (Coo × Coo) :=
  ((intRange (min yr.1 yr.2) (max yr.1 yr.2)).map (fun j =>
    (intRange (min xr.1 xr.2) (max xr.1 xr.2 + 1)).map (fun i =>
      (siteTagCoo Lx Ly i j, siteTagCoo Lx Ly i (j + 1))))).flatten

/-- The pairwise contractions emitted by
`_contract_boundary_from_right_single`: `j` descending in
`range(max yrange, min yrange, -1)`, contracting `(i, j)` with `(i, j - 1)`. -/
def rightPairs (Lx Ly : Int) (yr xr : Int × Int) : List (Coo × Coo) :=
  ((intRangeDown (max yr.1 yr.2) (min yr.1 yr.2)).map (fun j =>
    (intRange (min xr.1 xr.2) (max xr.1 xr.2 + 1)).map (fun i =>
      (siteTagCoo Lx Ly i j, siteTagCoo Lx Ly i (j - 1))))).flatten

/-- Apply a list of pairwise tag contractions in order. -/
def applyContractions (pairs : List (Coo × Coo)) (tn : TN) : TN :=
  pairs.foldl (fun acc p => contractTags2 acc p.1 p.2) tn

/-- Structural effect of `_contract_boundary_from_bottom_single` on the
network (the interleaved `canonize_row` / `compress_row` calls preserve
this structure). -/
def absorbFromBottom (Lx Ly : Int) (xr yr : Int × Int) (tn : TN) : TN :=
  applyContractions (bottomPairs Lx Ly xr yr) tn

/-- Structural effect of `_contract_boundary_from_top_single`. -/
def absorbFromTop (Lx Ly : Int) (xr yr : Int × Int) (tn : TN) : TN :=
  applyContractions (topPairs Lx Ly xr yr) tn

/-- Structural effect of `_contract_boundary_from_left_single`. -/
def absorbFromLeft (Lx Ly : Int) (yr xr : Int × Int) (tn : TN) : TN :=
  applyContractions (leftPairs Lx Ly yr xr) tn

/-- Structural effect of `_contract_boundary_from_right_single`. -/
def absorbFromRight (Lx Ly : Int) (yr xr : Int × Int) (tn : TN) : TN :=
  applyContractions (rightPairs Lx Ly yr xr) tn

/-- The scheduler's frontier rectangle: the four local variables
`bottom`, `top`, `left`, `right` of `contract_boundary`. -/
structure Frontier where
  bottom : Int
  top : Int
  left : Int
  right : Int
deriving DecidableEq, Repr

/-- The scheduler's loop state: frontier, the `reached_stop` flags (a dict
keyed by the letters of `sequence`), the network, and a ghost counter of
performed directional absorption steps. -/
structure SchedState where
  fr : Frontier
  flags : Char → Bool
  tn : TN
  nsteps : Nat

/-- Configuration of one `contract_boundary` call. -/
structure BoundaryConfig where
  Lx : Int
  Ly : Int
  around : Option (List Coo)
  max_separation : Int
  sequence : List Char

/-- `min(x[0] for x in around)` (callers always pass a nonempty list). -/
def stop_i_min : List Coo → Int
  | [] => 0
  | p :: r => (r.map Prod.fst).foldl min p.1

/-- `max(x[0] for x in around)`. -/
def stop_i_max : List Coo → Int
  | [] => 0
  | p :: r => (r.map Prod.fst).foldl max p.1

/-- `min(x[1] for x in around)`. -/
def stop_j_min : List Coo → Int
  | [] => 0
  | p :: r => (r.map Prod.snd).foldl min p.2

/-- `max(x[1] for x in around)`. -/
def stop_j_max : List Coo → Int
  | [] => 0
  | p :: r => (r.map Prod.snd).foldl max p.2

/-- The guard deciding whether the visited direction still advances:
`(around is None) or (bottom + 1 < stop_i_min)` and its analogues. -/
def canAdvance (cfg : BoundaryConfig) (d : Char) (st : SchedState) : Bool :=
  match cfg.around with
  | none => true
  | some ps =>
    if d = 'b' then decide (st.fr.bottom + 1 < stop_i_min ps)
    else if d = 'l' then decide (st.fr.left + 1 < stop_j_min ps)
    else if d = 't' then decide (st.fr.top - 1 > stop_i_max ps)
    else if d = 'r' then decide (st.fr.right - 1 > stop_j_max ps)
    else true

/-- The advancing branch of one scheduler iteration: perform the
directional absorption for `d` at the current edge and move that edge one
step inward (`bottom += 1` etc.). -/
def advanceState (cfg : BoundaryConfig) (d : Char) (st : SchedState) : SchedState :=
  if d = 'b' then
    { st with
      tn := absorbFromBottom cfg.Lx cfg.Ly (st.fr.bottom, st.fr.bottom + 1)
              (st.fr.left, st.fr.right) st.tn,
      fr := { st.fr with bottom := st.fr.bottom + 1 },
      nsteps := st.nsteps + 1 }
  else if d = 'l' then
    { st with
      tn := absorbFromLeft cfg.Lx cfg.Ly (st.fr.left, st.fr.left + 1)
              (st.fr.bottom, st.fr.top) st.tn,
      fr := { st.fr with left := st.fr.left + 1 },
      nsteps := st.nsteps + 1 }
  else if d = 't' then
    { st with
      tn := absorbFromTop cfg.Lx cfg.Ly (st.fr.top, st.fr.top - 1)
              (st.fr.left, st.fr.right) st.tn,
      fr := { st.fr with top := st.fr.top - 1 },
      nsteps := st.nsteps + 1 }
  else if d = 'r' then
    { st with
      tn := absorbFromRight cfg.Lx cfg.Ly (st.fr.right, st.fr.right - 1)
              (st.fr.bottom, st.fr.top) st.tn,
      fr := { st.fr with right := st.fr.right - 1 },
      nsteps := st.nsteps + 1 }
  else st

/-- The stalling branch: `reached_stop[direction] = True`. -/
def stallState (d : Char) (st : SchedState) : SchedState :=
  { st with flags := fun c => if c = d then true else st.flags c }

/-- Result of one scheduler iteration. -/
inductive IterOut where
  | next (st : SchedState)
  | contractedI (t : T2D) (st : SchedState)
  | networkI (st : SchedState)
  | errI (st : SchedState)

/-- The state carried by an iteration result. -/
def IterOut.state : IterOut → SchedState
  | .next st => st
  | .contractedI _ st => st
  | .networkI st => st
  | .errI st => st

/-- The check at the end of each loop body: with no protected region,
return the exact contraction of the remainder as soon as the rectangle is
thin; with one, break once every direction's stop flag is set. -/
def postCheck (cfg : BoundaryConfig) (st : SchedState) : IterOut :=
  match cfg.around with
  | none =>
    if st.fr.top - st.fr.bottom ≤ cfg.max_separation ∨
        st.fr.right - st.fr.left ≤ cfg.max_separation then
      .contractedI (contractAllTensors st.tn) st
    else .next st
  | some _ =>
    if cfg.sequence.all (fun c => st.flags c) then .networkI st else .next st

/-- One iteration of the `for direction in cycle(sequence)` body of
`contract_boundary`: branch on the direction letter (raising on an
unrecognized one), advance or set the stop flag, then run the
thin-strip / all-stopped check. -/
def schedIter (cfg : BoundaryConfig) (d : Char) (st : SchedState) : IterOut :=
  if d = 'b' ∨ d = 'l' ∨ d = 't' ∨ d = 'r' then
    postCheck cfg (if canAdvance cfg d st then advanceState cfg d st else stallState d st)
  else .errI st

/-- Final outcome of a `contract_boundary` call. -/
inductive BOut where
  | contractedR (t : T2D) (st : SchedState)
  | networkR (st : SchedState)
  | errR (st : SchedState)
  | fuelOut (st : SchedState)

/-- The fuel-indexed scheduler loop; `pos` indexes into the cyclic
direction sequence. -/
def runAux (cfg : BoundaryConfig) : Nat → Nat → SchedState → BOut
  | 0, _, st => .fuelOut st
  | fuel + 1, pos, st =>
    match schedIter cfg (cfg.sequence.getD (pos % cfg.sequence.length) 'b') st with
    | .next st' => runAux cfg fuel (pos + 1) st'
    | .contractedI t st' => .contractedR t st'
    | .networkI st' => .networkR st'
    | .errI st' => .errR st'

/-- The initial frontier: per-edge overrides default to the full lattice
extent. -/
def initFrontier (cfg : BoundaryConfig) (b t l r : Option Int) : Frontier :=
  ⟨b.getD 0, t.getD (cfg.Lx - 1), l.getD 0, r.getD (cfg.Ly - 1)⟩

/-- The scheduler state on entry to the loop. -/
def initState (cfg : BoundaryConfig) (b t l r : Option Int) (tn : TN) : SchedState :=
  ⟨initFrontier cfg b t l r, fun _ => false, tn, 0⟩

/-- `TensorNetwork2D.contract_boundary`; with an empty `sequence` the
`cycle` loop body never runs and the network is returned unchanged. -/
def contract_boundary (cfg : BoundaryConfig) (b t l r : Option Int) (tn : TN)
    (fuel : Nat) : BOut :=
  if cfg.sequence = [] then .networkR (initState cfg b t l r tn)
  else runAux cfg fuel 0 (initState cfg b t l r tn)

/-- Frontier of an outcome, for evaluating runs on concrete inputs. -/
def BOut.frontierOf : BOut → Option Frontier
  | .contractedR _ st => some st.fr
  | .networkR st => some st.fr
  | .errR st => some st.fr
  | .fuelOut st => some st.fr

/-- Ghost step count of an outcome (only for terminated runs). -/
def BOut.nstepsOf : BOut → Option Nat
  | .contractedR _ st => some st.nsteps
  | .networkR st => some st.nsteps
  | .errR _ => none
  | .fuelOut _ => none

/-- The contracted single-tensor result, when the run ended on the
thin-strip exit. -/
def BOut.resultOf : BOut → Option T2D
  | .contractedR t _ => some t
  | _ => none

/-- A Python argument that is either already a string (passed through) or
an integer coordinate. -/
inductive StrOrInt where
  | s (v : String)
  | i (v : Int)
deriving DecidableEq

/-- How `str.format` renders an argument. -/
def renderArg : StrOrInt → String
  | .s v => v
  | .i v => toString v

/-- A two-hole naming template such as the default site-tag template. -/
structure Fmt2 where
  pre : String
  mid : String
  post : String

/-- `template.format(a, b)`. -/
def Fmt2.render (f : Fmt2) (a b : String) : String :=
  f.pre ++ a ++ f.mid ++ b ++ f.post

/-- A one-hole naming template such as the default row-tag template. -/
structure Fmt1 where
  pre : String
  post : String

/-- `template.format(a)`. -/
def Fmt1.render (f : Fmt1) (a : String) : String := f.pre ++ a ++ f.post

/-- `if not isinstance(i, str): i = i % L`. -/
def wrapArg (L : Int) : StrOrInt → StrOrInt
  | .s v => .s v
  | .i v => .i (v % L)

/-- `TensorNetwork2D.site_tag(i, j)`. -/
def site_tag (Lx Ly : Int) (fmt : Fmt2) (i j : StrOrInt) : String :=
  fmt.render (renderArg (wrapArg Lx i)) (renderArg (wrapArg Ly j))

/-- `TensorNetwork2D.row_tag(i)`. -/
def row_tag (Lx : Int) (fmt : Fmt1) (i : StrOrInt) : String :=
  fmt.render (renderArg (wrapArg Lx i))

/-- `TensorNetwork2D.col_tag(j)`. -/
def col_tag (Ly : Int) (fmt : Fmt1) (j : StrOrInt) : String :=
  fmt.render (renderArg (wrapArg Ly j))

/-- An element of a Python iterable passed as a tag argument: either
coercible by `int(...)` (to the given value) or not. -/
inductive PyItem where
  | intlike (n : Int)
  | nonint
deriving DecidableEq

/-- A value passed where tags are accepted: a string, or an iterable. -/
inductive PyVal where
  | str (s : String)
  | seq (xs : List PyItem)
deriving DecidableEq

/-- `TensorNetwork2D.maybe_convert_coo`: a non-string value that unpacks
as exactly two `int`-coercible items is rewritten to the corresponding
site tag; everything else (strings, wrong arity, non-coercible items)
passes through unchanged. -/
def maybe_convert_coo (Lx Ly : Int) (fmt : Fmt2) : PyVal → PyVal
  | .str s => .str s
  | .seq xs =>
    match xs with
    | [.intlike a, .intlike b] => .str (site_tag Lx Ly fmt (.i a) (.i b))
    | _ => .seq xs

/-- Modelled from the spec: `check_opt` lives in `quimb/utils.py`, which is
not among the provided sources; per the spec, configuration errors (an
invalid sweep-direction value) are fatal and reported immediately at the
point of use, so it raises unless the value is among the allowed ones. -/
def check_opt (value : String) (valid : List String) : Except String Unit :=
  if value ∈ valid then .ok () else .error ("invalid option: " ++ value)

/-- The ordered pairwise `canonize_between` calls emitted by
`canonize_row(i, sweep, yrange)`; the direction is validated before any
pair is visited. -/
def canonize_row_pairs (Ly i : Int) (sweep : String) (yrange : Option (Int × Int)) :
    Except String (List (Coo × Coo)) :=
  match check_opt sweep ["right", "left"] with
  | .error e => .error e
  | .ok _ =>
    let yr := yrange.getD (0, Ly - 1)
    if sweep = "right" then
      .ok ((intRange (min yr.1 yr.2) (max yr.1 yr.2)).map (fun j => ((i, j), (i, j + 1))))
    else
      .ok ((intRangeDown (max yr.1 yr.2) (min yr.1 yr.2)).map (fun j => ((i, j), (i, j - 1))))

/-- The ordered pairwise `canonize_between` calls emitted by
`canonize_column(j, sweep, xrange)`. -/
def canonize_column_pairs (Lx j : Int) (sweep : String) (xrange : Option (Int × Int)) :
    Except String (List (Coo × Coo)) :=
  match check_opt sweep ["up", "down"] with
  | .error e => .error e
  | .ok _ =>
    let xr := xrange.getD (0, Lx - 1)
    if sweep = "up" then
      .ok ((intRange (min xr.1 xr.2) (max xr.1 xr.2)).map (fun i => ((i, j), (i + 1, j))))
    else
      .ok ((intRangeDown (max xr.1 xr.2) (min xr.1 xr.2)).map (fun i => ((i, j), (i - 1, j))))

/-- `canonize_row` acting on the network: the emitted pairs folded through
the external-engine `canonize_between` call `g`. -/
def canonize_row_run (g : TN → Coo → Coo → TN) (Ly i : Int) (sweep : String)
    (yrange : Option (Int × Int)) (tn : TN) : Except String TN :=
  (canonize_row_pairs Ly i sweep yrange).map
    (fun ps => ps.foldl (fun acc p => g acc p.1 p.2) tn)

/-- `canonize_column` acting on the network. -/
def canonize_column_run (g : TN → Coo → Coo → TN) (Lx j : Int) (sweep : String)
    (xrange : Option (Int × Int)) (tn : TN) : Except String TN :=
  (canonize_column_pairs Lx j sweep xrange).map
    (fun ps => ps.foldl (fun acc p => g acc p.1 p.2) tn)

/-- One delegated `compress_between(coo1, coo2, absorb=absorb)` call. -/
structure CompressEvent where
  coo1 : Coo
  coo2 : Coo
  absorb : String
deriving DecidableEq

/-- The ordered `compress_between` calls emitted by
`compress_row(i, sweep, yrange, **opts)`; the direction is validated first
and `opts.setdefault('absorb', 'right')` supplies the default absorb side
for both sweep directions. -/
def compress_row_events (Ly i : Int) (sweep : String) (yrange : Option (Int × Int))
    (absorb : Option String) : Except String (List CompressEvent) :=
  match check_opt sweep ["right", "left"] with
  | .error e => .error e
  | .ok _ =>
    let ab := absorb.getD "right"
    let yr := yrange.getD (0, Ly - 1)
    if sweep = "right" then
      .ok ((intRange (min yr.1 yr.2) (max yr.1 yr.2)).map (fun j => ⟨(i, j), (i, j + 1), ab⟩))
    else
      .ok ((intRangeDown (max yr.1 yr.2) (min yr.1 yr.2)).map (fun j => ⟨(i, j), (i, j - 1), ab⟩))

/-- The ordered `compress_between` calls emitted by
`compress_column(j, sweep, xrange, **opts)`: an `'up'` sweep defaults
`absorb` to `'right'` on pairs `((i, j), (i + 1, j))`, a `'down'` sweep
defaults it to `'left'` on pairs `((i - 1, j), (i, j))`. -/
def compress_column_events (Lx j : Int) (sweep : String) (xrange : Option (Int × Int))
    (absorb : Option String) : Except String (List CompressEvent) :=
  match check_opt sweep ["up", "down"] with
  | .error e => .error e
  | .ok _ =>
    let xr := xrange.getD (0, Lx - 1)
    if sweep = "up" then
      let ab := absorb.getD "right"
      .ok ((intRange (min xr.1 xr.2) (max xr.1 xr.2)).map (fun i => ⟨(i, j), (i + 1, j), ab⟩))
    else
      let ab := absorb.getD "left"
      .ok ((intRangeDown (max xr.1 xr.2) (min xr.1 xr.2)).map (fun i => ⟨(i - 1, j), (i, j), ab⟩))

/-- `compress_row` acting on the network through the external-engine
truncation call `h`. -/
def compress_row_run (h : TN → CompressEvent → TN) (Ly i : Int) (sweep : String)
    (yrange : Option (Int × Int)) (absorb : Option String) (tn : TN) : Except String TN :=
  (compress_row_events Ly i sweep yrange absorb).map (fun es => es.foldl h tn)

/-- `compress_column` acting on the network. -/
def compress_column_run (h : TN → CompressEvent → TN) (Lx j : Int) (sweep : String)
    (xrange : Option (Int × Int)) (absorb : Option String) (tn : TN) : Except String TN :=
  (compress_column_events Lx j sweep xrange absorb).map (fun es => es.foldl h tn)

/-- Modelled from the spec: the external `compress_between(T1, T2, absorb)`
primitive (generic tensor-network engine, §6 of the spec) folds the norm of
the discarded weight into its first argument tensor for `'left'` and into
its second for `'right'`. -/
def absorbTarget (e : CompressEvent) : Coo :=
  if e.absorb = "right" then e.coo2 else e.coo1

/-- C7: the lattice addressing functions wrap integer coordinates
(`site_tag(i, j) = site_tag(i mod Lx, j mod Ly)`, likewise `row_tag` and
`col_tag`), string arguments pass through unchanged into the template, and
`maybe_convert_coo` rewrites exactly the 2-element integer-coercible
inputs to the corresponding site tag, leaving strings and non-coercible
inputs unmodified. -/
theorem c7_lattice_addressing :
    (∀ (Lx Ly : Int) (fmt : Fmt2) (i j : Int),
      site_tag Lx Ly fmt (.i i) (.i j) = site_tag Lx Ly fmt (.i (i % Lx)) (.i (j % Ly))) ∧
    (∀ (Lx : Int) (fmt : Fmt1) (i : Int),
      row_tag Lx fmt (.i i) = row_tag Lx fmt (.i (i % Lx))) ∧
    (∀ (Ly : Int) (fmt : Fmt1) (j : Int),
      col_tag Ly fmt (.i j) = col_tag Ly fmt (.i (j % Ly))) ∧
    (∀ (Lx Ly : Int) (fmt : Fmt2) (a b : String),
      site_tag Lx Ly fmt (.s a) (.s b) = fmt.render a b) ∧
    (∀ (Lx Ly : Int) (fmt : Fmt2) (a : String) (j : Int),
      site_tag Lx Ly fmt (.s a) (.i j) = fmt.render a (renderArg (.i (j % Ly)))) ∧
    (∀ (Lx Ly : Int) (fmt : Fmt2) (a b : Int),
      maybe_convert_coo Lx Ly fmt (.seq [.intlike a, .intlike b]) =
        .str (site_tag Lx Ly fmt (.i a) (.i b))) ∧
    (∀ (Lx Ly : Int) (fmt : Fmt2) (s : String),
      maybe_convert_coo Lx Ly fmt (.str s) = .str s) ∧
    (∀ (Lx Ly : Int) (fmt : Fmt2) (xs : List PyItem),
      (∀ a b : Int, xs ≠ [.intlike a, .intlike b]) →
      maybe_convert_coo Lx Ly fmt (.seq xs) = .seq xs) := by
  refine ⟨?_, ?_, ?_, ?_, ?_, ?_, ?_, ?_⟩
  · intro Lx Ly fmt i j
    simp [site_tag, wrapArg, Int.emod_emod_of_dvd _ (dvd_refl Lx),
      Int.emod_emod_of_dvd _ (dvd_refl Ly)]
  · intro Lx fmt i
    simp [row_tag, wrapArg, Int.emod_emod_of_dvd _ (dvd_refl Lx)]
  · intro Ly fmt j
    simp [col_tag, wrapArg, Int.emod_emod_of_dvd _ (dvd_refl Ly)]
  · intro Lx Ly fmt a b
    rfl
  · intro Lx Ly fmt a j
    rfl
  · intro Lx Ly fmt a b
    rfl
  · intro Lx Ly fmt s
    rfl
  · intro Lx Ly fmt xs h
    match xs with
    | [] => rfl
    | [PyItem.intlike a] => rfl
    | [PyItem.nonint] => rfl
    | [PyItem.intlike a, PyItem.intlike b] => exact absurd rfl (h a b)
    | [PyItem.intlike a, PyItem.nonint] => rfl
    | [PyItem.nonint, y] => rfl
    | x :: y :: z :: rest =>
      cases x <;> cases y <;> rfl

/-- Witness for C7 at concrete inputs. -/
theorem c7_lattice_addressing_witness :
    maybe_convert_coo 3 4 ⟨"I", ",", ""⟩ (.seq [.intlike 7, .intlike (-1)]) =
      .str (site_tag 3 4 ⟨"I", ",", ""⟩ (.i 7) (.i (-1))) ∧
    maybe_convert_coo 3 4 ⟨"I", ",", ""⟩ (.seq [.intlike 7, .nonint]) =
      .seq [.intlike 7, .nonint] ∧
    site_tag 3 4 ⟨"I", ",", ""⟩ (.i 7) (.i (-1)) =
      site_tag 3 4 ⟨"I", ",", ""⟩ (.i (7 % 3)) (.i ((-1) % 4)) := by
  refine ⟨c7_lattice_addressing.2.2.2.2.2.1 3 4 ⟨"I", ",", ""⟩ 7 (-1),
    c7_lattice_addressing.2.2.2.2.2.2.2 3 4 ⟨"I", ",", ""⟩ [.intlike 7, .nonint]
      (by intro a b hab; simp at hab),
    c7_lattice_addressing.1 3 4 ⟨"I", ",", ""⟩ 7 (-1)⟩

/-- C9: a single-element range makes the row/column canonization and
compression sweeps emit no pairwise operation and leave the network
completely unchanged. -/
theorem c9_single_range_noop :
    ∀ (g : TN → Coo → Coo → TN) (h : TN → CompressEvent → TN)
      (Lx Ly i j x y : Int) (sweepRow sweepCol : String) (ab : Option String) (tn : TN),
      sweepRow = "right" ∨ sweepRow = "left" →
      sweepCol = "up" ∨ sweepCol = "down" →
      canonize_row_pairs Ly i sweepRow (some (y, y)) = .ok [] ∧
      canonize_column_pairs Lx j sweepCol (some (x, x)) = .ok [] ∧
      canonize_row_run g Ly i sweepRow (some (y, y)) tn = .ok tn ∧
      canonize_column_run g Lx j sweepCol (some (x, x)) tn = .ok tn ∧
      compress_row_run h Ly i sweepRow (some (y, y)) ab tn = .ok tn ∧
      compress_column_run h Lx j sweepCol (some (x, x)) ab tn = .ok tn := by
  intro g h Lx Ly i j x y sweepRow sweepCol ab tn hr hc
  have hrp : canonize_row_pairs Ly i sweepRow (some (y, y)) = .ok [] := by
    rcases hr with rfl | rfl <;>
      simp [canonize_row_pairs, check_opt, intRange_self, intRangeDown_self]
  have hcp : canonize_column_pairs Lx j sweepCol (some (x, x)) = .ok [] := by
    rcases hc with rfl | rfl <;>
      simp [canonize_column_pairs, check_opt, intRange_self, intRangeDown_self]
  have hre : compress_row_events Ly i sweepRow (some (y, y)) ab = .ok [] := by
    rcases hr with rfl | rfl <;>
      simp [compress_row_events, check_opt, intRange_self, intRangeDown_self]
  have hce : compress_column_events Lx j sweepCol (some (x, x)) ab = .ok [] := by
    rcases hc with rfl | rfl <;>
      simp [compress_column_events, check_opt, intRange_self, intRangeDown_self]
  refine ⟨hrp, hcp, ?_, ?_, ?_, ?_⟩
  · simp [canonize_row_run, hrp, Except.map]
  · simp [canonize_column_run, hcp, Except.map]
  · simp [compress_row_run, hre, Except.map]
  · simp [compress_column_run, hce, Except.map]

/-- Witness for C9 at concrete inputs. -/
theorem c9_single_range_noop_witness :
    canonize_row_pairs 5 2 "right" (some (3, 3)) = .ok [] ∧
    canonize_column_pairs 5 2 "down" (some (3, 3)) = .ok [] ∧
    canonize_row_run (fun acc _ _ => acc) 5 2 "right" (some (3, 3)) [[(0, 0)]] = .ok [[(0, 0)]] ∧
    canonize_column_run (fun acc _ _ => acc) 5 2 "down" (some (3, 3)) [[(0, 0)]] = .ok [[(0, 0)]] ∧
    compress_row_run (fun acc _ => acc) 5 2 "right" (some (3, 3)) none [[(0, 0)]] = .ok [[(0, 0)]] ∧
    compress_column_run (fun acc _ => acc) 5 2 "down" (some (3, 3)) none [[(0, 0)]] = .ok [[(0, 0)]] :=
  c9_single_range_noop (fun acc _ _ => acc) (fun acc _ => acc) 5 5 2 2 3 3
    "right" "down" none [[(0, 0)]] (Or.inl rfl) (Or.inr rfl)

/-- C5: with no caller-supplied absorb option the default absorb side
always folds the discarded weight into the sweep-direction neighbour of
each compressed bond: a 'right' row sweep absorbs into the right lattice
neighbour, a 'left' sweep into the left one, an 'up' column sweep into the
upper one and a 'down' sweep into the lower one. -/
theorem c5_default_absorb :
    ∀ (Lx Ly i j : Int) (yr xr : Option (Int × Int)) (evs : List CompressEvent),
      (compress_row_events Ly i "right" yr none = .ok evs →
        ∀ e ∈ evs, ∃ y, e = ⟨(i, y), (i, y + 1), "right"⟩ ∧ absorbTarget e = (i, y + 1)) ∧
      (compress_row_events Ly i "left" yr none = .ok evs →
        ∀ e ∈ evs, ∃ y, e = ⟨(i, y), (i, y - 1), "right"⟩ ∧ absorbTarget e = (i, y - 1)) ∧
      (compress_column_events Lx j "up" xr none = .ok evs →
        ∀ e ∈ evs, ∃ x, e = ⟨(x, j), (x + 1, j), "right"⟩ ∧ absorbTarget e = (x + 1, j)) ∧
      (compress_column_events Lx j "down" xr none = .ok evs →
        ∀ e ∈ evs, ∃ x, e = ⟨(x - 1, j), (x, j), "left"⟩ ∧ absorbTarget e = (x - 1, j)) := by
  intro Lx Ly i j yr xr evs
  refine ⟨?_, ?_, ?_, ?_⟩
  · intro hok e he
    simp only [compress_row_events, check_opt] at hok
    simp at hok
    subst hok
    simp only [List.mem_map] at he
    obtain ⟨y, hy, rfl⟩ := he
    exact ⟨y, rfl, by simp [absorbTarget]⟩
  · intro hok e he
    simp only [compress_row_events, check_opt] at hok
    simp at hok
    subst hok
    simp only [List.mem_map] at he
    obtain ⟨y, hy, rfl⟩ := he
    exact ⟨y, rfl, by simp [absorbTarget]⟩
  · intro hok e he
    simp only [compress_column_events, check_opt] at hok
    simp at hok
    subst hok
    simp only [List.mem_map] at he
    obtain ⟨x, hx, rfl⟩ := he
    exact ⟨x, rfl, by simp [absorbTarget]⟩
  · intro hok e he
    simp only [compress_column_events, check_opt] at hok
    simp at hok
    subst hok
    simp only [List.mem_map] at he
    obtain ⟨x, hx, rfl⟩ := he
    exact ⟨x, rfl, by simp [absorbTarget]⟩

/-- Witness for C5 at concrete inputs. -/
theorem c5_default_absorb_witness :
    ∀ e ∈ [(⟨(0, 0), (0, 1), "right"⟩ : CompressEvent), ⟨(0, 1), (0, 2), "right"⟩],
      ∃ y, e = (⟨(0, y), (0, y + 1), "right"⟩ : CompressEvent) ∧ absorbTarget e = (0, y + 1) :=
  (c5_default_absorb 3 3 0 0 none none
      [⟨(0, 0), (0, 1), "right"⟩, ⟨(0, 1), (0, 2), "right"⟩]).1 rfl

/-- C6: a sweep-direction argument outside the recognized set raises a
configuration error before any pairwise operation touches the network
(the result is an error and no engine call is folded into the state), and
the boundary scheduler raises as soon as it reaches a sequence letter
outside 'b', 'l', 't', 'r'. -/
theorem c6_invalid_direction_errors :
    (∀ (g : TN → Coo → Coo → TN) (Ly i : Int) (sweep : String)
        (yr : Option (Int × Int)) (tn : TN), sweep ≠ "right" → sweep ≠ "left" →
      canonize_row_run g Ly i sweep yr tn = .error ("invalid option: " ++ sweep)) ∧
    (∀ (g : TN → Coo → Coo → TN) (Lx j : Int) (sweep : String)
        (xr : Option (Int × Int)) (tn : TN), sweep ≠ "up" → sweep ≠ "down" →
      canonize_column_run g Lx j sweep xr tn = .error ("invalid option: " ++ sweep)) ∧
    (∀ (h : TN → CompressEvent → TN) (Ly i : Int) (sweep : String)
        (yr : Option (Int × Int)) (ab : Option String) (tn : TN),
      sweep ≠ "right" → sweep ≠ "left" →
      compress_row_run h Ly i sweep yr ab tn = .error ("invalid option: " ++ sweep)) ∧
    (∀ (h : TN → CompressEvent → TN) (Lx j : Int) (sweep : String)
        (xr : Option (Int × Int)) (ab : Option String) (tn : TN),
      sweep ≠ "up" → sweep ≠ "down" →
      compress_column_run h Lx j sweep xr ab tn = .error ("invalid option: " ++ sweep)) ∧
    (∀ (cfg : BoundaryConfig) (fuel pos : Nat) (st : SchedState),
      cfg.sequence.getD (pos % cfg.sequence.length) 'b' ≠ 'b' →
      cfg.sequence.getD (pos % cfg.sequence.length) 'b' ≠ 'l' →
      cfg.sequence.getD (pos % cfg.sequence.length) 'b' ≠ 't' →
      cfg.sequence.getD (pos % cfg.sequence.length) 'b' ≠ 'r' →
      runAux cfg (fuel + 1) pos st = .errR st) := by
  refine ⟨?_, ?_, ?_, ?_, ?_⟩
  · intro g Ly i sweep yr tn h1 h2
    simp [canonize_row_run, canonize_row_pairs, check_opt, h1, h2, Except.map]
  · intro g Lx j sweep xr tn h1 h2
    simp [canonize_column_run, canonize_column_pairs, check_opt, h1, h2, Except.map]
  · intro h Ly i sweep yr ab tn h1 h2
    simp [compress_row_run, compress_row_events, check_opt, h1, h2, Except.map]
  · intro h Lx j sweep xr ab tn h1 h2
    simp [compress_column_run, compress_column_events, check_opt, h1, h2, Except.map]
  · intro cfg fuel pos st h1 h2 h3 h4
    have hno : ¬(cfg.sequence.getD (pos % cfg.sequence.length) 'b' = 'b' ∨
        cfg.sequence.getD (pos % cfg.sequence.length) 'b' = 'l' ∨
        cfg.sequence.getD (pos % cfg.sequence.length) 'b' = 't' ∨
        cfg.sequence.getD (pos % cfg.sequence.length) 'b' = 'r') := by
      push_neg
      exact ⟨h1, h2, h3, h4⟩
    simp only [runAux, schedIter]
    rw [if_neg hno]

/-- Witness for C6 at concrete inputs. -/
theorem c6_invalid_direction_errors_witness :
    canonize_row_run (fun acc _ _ => acc) 5 0 "diagonal" none [[(0, 0)]] =
      .error ("invalid option: " ++ "diagonal") ∧
    runAux ⟨2, 2, none, 1, ['x']⟩ 3 0 (initState ⟨2, 2, none, 1, ['x']⟩ none none none none []) =
      .errR (initState ⟨2, 2, none, 1, ['x']⟩ none none none none []) := by
  constructor
  · exact c6_invalid_direction_errors.1 (fun acc _ _ => acc) 5 0 "diagonal" none [[(0, 0)]]
      (by decide) (by decide)
  · exact c6_invalid_direction_errors.2.2.2.2 ⟨2, 2, none, 1, ['x']⟩ 2 0
      (initState ⟨2, 2, none, 1, ['x']⟩ none none none none [])
      (by decide) (by decide) (by decide) (by decide)

/-- `PEPS.__init__`: the (default-shape `'urdlp'`) index order kept at
site `(i, j)` after removing the out-of-lattice directions — `'u'` for the
top row, `'r'` for the last column, `'d'` for the bottom row, `'l'` for
the first column (string `replace` with the empty string removes every
occurrence). -/
def dropEdgeChars (Lx Ly i j : Int) (shape : List Char) : List Char :=
  let s1 := if i = Lx - 1 then shape.filter (fun c => c ≠ 'u') else shape
  let s2 := if j = Ly - 1 then s1.filter (fun c => c ≠ 'r') else s1
  let s3 := if i = 0 then s2.filter (fun c => c ≠ 'd') else s2
  let s4 := if j = 0 then s3.filter (fun c => c ≠ 'l') else s3
  s4

/-- The per-site index order for the default `shape='urdlp'`. -/
def arrayOrder (Lx Ly i j : Int) : List Char :=
  dropEdgeChars Lx Ly i j ['u', 'r', 'd', 'l', 'p']

theorem mem_arrayOrder (Lx Ly i j : Int) (c : Char) :
    c ∈ arrayOrder Lx Ly i j ↔
      (c = 'u' ∧ i ≠ Lx - 1) ∨ (c = 'r' ∧ j ≠ Ly - 1) ∨
      (c = 'd' ∧ i ≠ 0) ∨ (c = 'l' ∧ j ≠ 0) ∨ c = 'p' := by
  unfold arrayOrder dropEdgeChars
  split_ifs with h1 h2 h3 h4 <;> simp_all

/-- The squeeze step of `PEPS.__init__` (shape level): when the supplied
array has a number of dimensions different from the expected index count
for that site, every size-1 dimension is removed (`do('squeeze', array)`);
otherwise the array is used as given. -/
def prepArray (order : List Char) (shape : List Nat) : List Nat :=
  if shape.length ≠ order.length then shape.filter (fun d => d ≠ 1) else shape

/-- A tensor index of the PEPS construction: interior bonds are keyed by
the coordinate pair used in the `ix = defaultdict(rand_uuid)` cache (equal
keys yield the same fresh identifier, distinct keys distinct ones —
the uniqueness guarantee of `rand_uuid`), plus the physical site index. -/
inductive Ind where
  | bond (a b c d : Int)
  | phys (i j : Int)
deriving DecidableEq, Repr

/-- The index list built for site `(i, j)` in `PEPS.__init__` with the
default `'urdlp'` order: the cache key `((i+1, j), (i, j))` for `'u'`,
`((i, j), (i, j+1))` for `'r'`, `((i, j), (i-1, j))` for `'d'`,
`((i, j-1), (i, j))` for `'l'`, then the physical site index. -/
def pepsInds (Lx Ly i j : Int) : List Ind :=
  (if 'u' ∈ arrayOrder Lx Ly i j then [Ind.bond (i + 1) j i j] else []) ++
  (if 'r' ∈ arrayOrder Lx Ly i j then [Ind.bond i j i (j + 1)] else []) ++
  (if 'd' ∈ arrayOrder Lx Ly i j then [Ind.bond i j (i - 1) j] else []) ++
  (if 'l' ∈ arrayOrder Lx Ly i j then [Ind.bond i (j - 1) i j] else []) ++
  [Ind.phys i j]

theorem mem_pepsInds (Lx Ly i j : Int) (x : Ind) :
    x ∈ pepsInds Lx Ly i j ↔
      (i ≠ Lx - 1 ∧ x = Ind.bond (i + 1) j i j) ∨
      (j ≠ Ly - 1 ∧ x = Ind.bond i j i (j + 1)) ∨
      (i ≠ 0 ∧ x = Ind.bond i j (i - 1) j) ∨
      (j ≠ 0 ∧ x = Ind.bond i (j - 1) i j) ∨
      x = Ind.phys i j := by
  unfold pepsInds
  split_ifs with h1 h2 h3 h4 <;> simp_all [mem_arrayOrder]

/-- C8: in the PEPS constructed from an `Lx` by `Ly` array of arrays,
each pair of lattice-adjacent sites shares exactly one connecting index:
the fresh identifier of their shared cache key, which lies on both
tensors, is the only index common to the two, occurs without duplication
(each tensor's index list is nodup), and appears on no other site's
tensor anywhere in the network. -/
theorem c8_peps_bonds :
    ∀ Lx Ly i j : Int, 0 ≤ i → 0 ≤ j →
      (i < Lx - 1 →
        Ind.bond (i + 1) j i j ∈ pepsInds Lx Ly i j ∧
        Ind.bond (i + 1) j i j ∈ pepsInds Lx Ly (i + 1) j ∧
        (∀ x, x ∈ pepsInds Lx Ly i j → x ∈ pepsInds Lx Ly (i + 1) j →
          x = Ind.bond (i + 1) j i j) ∧
        (∀ i2 j2 : Int, (i2, j2) ≠ (i, j) → (i2, j2) ≠ (i + 1, j) →
          Ind.bond (i + 1) j i j ∉ pepsInds Lx Ly i2 j2)) ∧
      (j < Ly - 1 →
        Ind.bond i j i (j + 1) ∈ pepsInds Lx Ly i j ∧
        Ind.bond i j i (j + 1) ∈ pepsInds Lx Ly i (j + 1) ∧
        (∀ x, x ∈ pepsInds Lx Ly i j → x ∈ pepsInds Lx Ly i (j + 1) →
          x = Ind.bond i j i (j + 1)) ∧
        (∀ i2 j2 : Int, (i2, j2) ≠ (i, j) → (i2, j2) ≠ (i, j + 1) →
          Ind.bond i j i (j + 1) ∉ pepsInds Lx Ly i2 j2)) ∧
      (pepsInds Lx Ly i j).Nodup := by
  intro Lx Ly i j hi hj
  refine ⟨?_, ?_, ?_⟩
  · intro hiLx
    refine ⟨?_, ?_, ?_, ?_⟩
    · rw [mem_pepsInds]
      exact Or.inl ⟨by omega, rfl⟩
    · rw [mem_pepsInds]
      refine Or.inr (Or.inr (Or.inl ⟨by omega, ?_⟩))
      congr 1
      omega
    · intro x hx1 hx2
      rw [mem_pepsInds] at hx1 hx2
      rcases hx1 with ⟨ha, rfl⟩ | ⟨ha, rfl⟩ | ⟨ha, rfl⟩ | ⟨ha, rfl⟩ | rfl <;>
        rcases hx2 with ⟨hb, he⟩ | ⟨hb, he⟩ | ⟨hb, he⟩ | ⟨hb, he⟩ | he <;>
        first
          | rfl
          | exact Ind.noConfusion he
          | (injection he with e1 e2 e3 e4; exfalso; omega)
          | (injection he with e1 e2; exfalso; omega)
    · intro i2 j2 hne1 hne2 hmem
      simp only [ne_eq, Prod.mk.injEq, not_and] at hne1 hne2
      rw [mem_pepsInds] at hmem
      rcases hmem with ⟨ha, he⟩ | ⟨ha, he⟩ | ⟨ha, he⟩ | ⟨ha, he⟩ | he <;>
        first
          | exact Ind.noConfusion he
          | (injection he with e1 e2 e3 e4; omega)
  · intro hjLy
    refine ⟨?_, ?_, ?_, ?_⟩
    · rw [mem_pepsInds]
      exact Or.inr (Or.inl ⟨by omega, rfl⟩)
    · rw [mem_pepsInds]
      refine Or.inr (Or.inr (Or.inr (Or.inl ⟨by omega, ?_⟩)))
      congr 1
      omega
    · intro x hx1 hx2
      rw [mem_pepsInds] at hx1 hx2
      rcases hx1 with ⟨ha, rfl⟩ | ⟨ha, rfl⟩ | ⟨ha, rfl⟩ | ⟨ha, rfl⟩ | rfl <;>
        rcases hx2 with ⟨hb, he⟩ | ⟨hb, he⟩ | ⟨hb, he⟩ | ⟨hb, he⟩ | he <;>
        first
          | rfl
          | exact Ind.noConfusion he
          | (injection he with e1 e2 e3 e4; exfalso; omega)
          | (injection he with e1 e2; exfalso; omega)
    · intro i2 j2 hne1 hne2 hmem
      simp only [ne_eq, Prod.mk.injEq, not_and] at hne1 hne2
      rw [mem_pepsInds] at hmem
      rcases hmem with ⟨ha, he⟩ | ⟨ha, he⟩ | ⟨ha, he⟩ | ⟨ha, he⟩ | he <;>
        first
          | exact Ind.noConfusion he
          | (injection he with e1 e2 e3 e4; omega)
  · unfold pepsInds
    split_ifs <;>
      simp [List.nodup_cons, List.nodup_append, Ind.bond.injEq, Ind.phys.injEq]

/-- Witness for C8 on the 2 by 2 lattice at site (0, 0). -/
theorem c8_peps_bonds_witness :
    Ind.bond 1 0 0 0 ∈ pepsInds 2 2 0 0 ∧
    Ind.bond 1 0 0 0 ∈ pepsInds 2 2 1 0 ∧
    Ind.bond 1 0 0 0 ∉ pepsInds 2 2 0 1 := by
  obtain ⟨hv, hh, hnd⟩ := c8_peps_bonds 2 2 0 0 (by decide) (by decide)
  obtain ⟨h1, h2, h3, h4⟩ := hv (by decide)
  exact ⟨h1, h2, h4 0 1 (by decide) (by decide)⟩

/-- C10 counterexample: at the corner site `(0, 0)` of a `2` by `1`
lattice the expected index order is `['u', 'p']`; with bond dimension 2
and physical dimension 1, supplying the array without the missing bond
dimensions keeps shape `[2, 1]`, while supplying it with them present as
singleton dimensions gives `[2, 1, 1, 1, 1]`, which the squeeze collapses
to `[2]` — the genuine size-1 physical dimension is removed too, so the
two conventions do not produce the same network. -/
theorem c10_counterexample :
    prepArray (arrayOrder 2 1 0 0) [2, 1, 1, 1, 1] ≠
      prepArray (arrayOrder 2 1 0 0) [2, 1] := by
  decide

/-- C10 (amended): when the supplied array has a number of dimensions
different from the expected count, all its size-1 dimensions are squeezed
away; consequently a boundary array may be given either without the
missing bond dimensions or with them present as singletons and the two
conventions build the same tensor, provided none of the expected
(retained) dimensions itself has size 1. -/
theorem c10_squeeze_amended :
    ∀ (order : List Char) (s f : List Nat),
      s.length = order.length → f.length ≠ order.length →
      f.filter (fun d => d ≠ 1) = s →
      prepArray order f = s ∧ prepArray order s = s := by
  intro order s f hs hf hfil
  constructor
  · unfold prepArray
    rw [if_pos hf]
    exact hfil
  · unfold prepArray
    rw [if_neg (not_not_intro hs)]

/-- Witness for C10 (amended) at concrete inputs. -/
theorem c10_squeeze_amended_witness :
    prepArray (arrayOrder 2 1 0 0) [2, 1, 1, 1, 3] = [2, 3] ∧
    prepArray (arrayOrder 2 1 0 0) [2, 3] = [2, 3] :=
  c10_squeeze_amended (arrayOrder 2 1 0 0) [2, 3] [2, 1, 1, 1, 3]
    (by decide) (by decide) (by decide)

/-- The state after `k` loop iterations of an `around=None` run, in which
every iteration performs exactly one directional absorption. -/
def advIter (cfg : BoundaryConfig) (st0 : SchedState) : Nat → SchedState
  | 0 => st0
  | k + 1 =>
    advanceState cfg (cfg.sequence.getD (k % cfg.sequence.length) 'b') (advIter cfg st0 k)

/-- The thin-strip stop condition tested after each step when no
protected region is configured. -/
abbrev thinQ (cfg : BoundaryConfig) (st : SchedState) : Prop :=
  st.fr.top - st.fr.bottom ≤ cfg.max_separation ∨
    st.fr.right - st.fr.left ≤ cfg.max_separation

/-- Sum of the two frontier spans; every directional absorption decreases
it by exactly one. -/
def spanSum (st : SchedState) : Int :=
  (st.fr.top - st.fr.bottom) + (st.fr.right - st.fr.left)

/-- Adequate remaining fuel for an `around=None` run from `st`. -/
def fuelLeft (cfg : BoundaryConfig) (st : SchedState) : Nat :=
  (spanSum st - 2 * cfg.max_separation - 1).toNat + 1

theorem runAux_succ (cfg : BoundaryConfig) (f pos : Nat) (st : SchedState) :
    runAux cfg (f + 1) pos st =
      match schedIter cfg (cfg.sequence.getD (pos % cfg.sequence.length) 'b') st with
      | .next st' => runAux cfg f (pos + 1) st'
      | .contractedI t st' => .contractedR t st'
      | .networkI st' => .networkR st'
      | .errI st' => .errR st' := rfl

theorem getD_mem_of_ne_nil {l : List Char} (h : l ≠ []) (k : Nat) (d : Char) :
    l.getD (k % l.length) d ∈ l := by
  have hlen : 0 < l.length := List.length_pos.mpr h
  have hk : k % l.length < l.length := Nat.mod_lt _ hlen
  rw [List.getD_eq_getElem?_getD, List.getElem?_eq_getElem hk]
  exact List.getElem_mem hk

theorem spanSum_advance (cfg : BoundaryConfig) (d : Char) (st : SchedState)
    (h : d = 'b' ∨ d = 'l' ∨ d = 't' ∨ d = 'r') :
    spanSum (advanceState cfg d st) = spanSum st - 1 := by
  rcases h with rfl | rfl | rfl | rfl <;> simp [advanceState, spanSum] <;> ring

theorem nsteps_advance (cfg : BoundaryConfig) (d : Char) (st : SchedState)
    (h : d = 'b' ∨ d = 'l' ∨ d = 't' ∨ d = 'r') :
    (advanceState cfg d st).nsteps = st.nsteps + 1 := by
  rcases h with rfl | rfl | rfl | rfl <;> simp [advanceState]

theorem advIter_nsteps (cfg : BoundaryConfig) (st0 : SchedState) (hne : cfg.sequence ≠ [])
    (hval : ∀ c ∈ cfg.sequence, c = 'b' ∨ c = 'l' ∨ c = 't' ∨ c = 'r') :
    ∀ k, (advIter cfg st0 k).nsteps = st0.nsteps + k := by
  intro k
  induction k with
  | zero => rfl
  | succ k ih =>
    have hd := hval _ (getD_mem_of_ne_nil hne k 'b')
    show (advanceState cfg _ (advIter cfg st0 k)).nsteps = _
    rw [nsteps_advance cfg _ _ hd, ih]
    ring

theorem advIter_spanSum (cfg : BoundaryConfig) (st0 : SchedState) (hne : cfg.sequence ≠ [])
    (hval : ∀ c ∈ cfg.sequence, c = 'b' ∨ c = 'l' ∨ c = 't' ∨ c = 'r') :
    ∀ k, spanSum (advIter cfg st0 k) = spanSum st0 - k := by
  intro k
  induction k with
  | zero => simp [advIter]
  | succ k ih =>
    have hd := hval _ (getD_mem_of_ne_nil hne k 'b')
    show spanSum (advanceState cfg _ (advIter cfg st0 k)) = _
    rw [spanSum_advance cfg _ _ hd, ih]
    push_cast
    ring

theorem schedIter_none (cfg : BoundaryConfig) (d : Char) (st : SchedState)
    (hA : cfg.around = none) (hd : d = 'b' ∨ d = 'l' ∨ d = 't' ∨ d = 'r') :
    schedIter cfg d st =
      if thinQ cfg (advanceState cfg d st) then
        .contractedI (contractAllTensors (advanceState cfg d st).tn) (advanceState cfg d st)
      else .next (advanceState cfg d st) := by
  unfold schedIter
  rw [if_pos hd]
  have hca : canAdvance cfg d st = true := by
    unfold canAdvance
    rw [hA]
  rw [if_pos hca]
  unfold postCheck
  rw [hA]


/-- Core run lemma for `around=None`: from the state after `k` steps, the
loop keeps absorbing one line per iteration and returns the exact
contraction of the remaining network at the first post-step state whose
rectangle is thin. -/
theorem run_none_core (cfg : BoundaryConfig) (st0 : SchedState)
    (hA : cfg.around = none) (hne : cfg.sequence ≠ [])
    (hval : ∀ c ∈ cfg.sequence, c = 'b' ∨ c = 'l' ∨ c = 't' ∨ c = 'r') :
    ∀ fuel k, (∀ m, 1 ≤ m → m ≤ k → ¬ thinQ cfg (advIter cfg st0 m)) →
      fuelLeft cfg (advIter cfg st0 k) ≤ fuel →
      ∃ n, k < n ∧ thinQ cfg (advIter cfg st0 n) ∧
        (∀ m, 1 ≤ m → m < n → ¬ thinQ cfg (advIter cfg st0 m)) ∧
        runAux cfg fuel k (advIter cfg st0 k) =
          .contractedR (contractAllTensors (advIter cfg st0 n).tn) (advIter cfg st0 n) := by
  intro fuel
  induction fuel with
  | zero =>
    intro k hmin hfl
    exfalso
    simp [fuelLeft] at hfl
  | succ f ih =>
    intro k hmin hfl
    have hd := hval _ (getD_mem_of_ne_nil hne k 'b')
    have hadv : advanceState cfg (cfg.sequence.getD (k % cfg.sequence.length) 'b')
        (advIter cfg st0 k) = advIter cfg st0 (k + 1) := rfl
    have hiter := schedIter_none cfg (cfg.sequence.getD (k % cfg.sequence.length) 'b')
      (advIter cfg st0 k) hA hd
    rw [hadv] at hiter
    by_cases hthin : thinQ cfg (advIter cfg st0 (k + 1))
    · refine ⟨k + 1, by omega, hthin, ?_, ?_⟩
      · intro m h1 h2
        exact hmin m h1 (by omega)
      · rw [runAux_succ, hiter, if_pos hthin]
    · have hspan : spanSum (advIter cfg st0 (k + 1)) = spanSum (advIter cfg st0 k) - 1 := by
        rw [← hadv]
        exact spanSum_advance cfg _ _ hd
      have hfl' : fuelLeft cfg (advIter cfg st0 (k + 1)) ≤ f := by
        have hth := hthin
        unfold thinQ at hth
        push_neg at hth
        unfold fuelLeft at hfl ⊢
        unfold spanSum at hspan hfl ⊢
        omega
      obtain ⟨n, hn1, hn2, hn3, hrun⟩ := ih (k + 1)
        (fun m h1 h2 => by
          rcases Nat.lt_or_ge m (k + 1) with hm | hm
          · exact hmin m h1 (by omega)
          · have : m = k + 1 := by omega
            rw [this]
            exact hthin)
        hfl'
      refine ⟨n, by omega, hn2, hn3, ?_⟩
      rw [runAux_succ, hiter, if_neg hthin]
      exact hrun

/-- C1: for every network, with no protected region (`around=None`) and
any `max_separation s ≥ 0`, `contract_boundary` performs directional
absorption steps until, immediately after some step, `top - bottom ≤ s`
or `right - left ≤ s` holds for the first time; at that point it stops
sweeping and returns the exact contraction of all remaining tensors into
a single result rather than the network. -/
theorem c1_thin_strip_stop (cfg : BoundaryConfig) (tn0 : TN)
    (_hLx : 1 ≤ cfg.Lx) (_hLy : 1 ≤ cfg.Ly) (_hs : 0 ≤ cfg.max_separation)
    (hA : cfg.around = none) (hne : cfg.sequence ≠ [])
    (hval : ∀ c ∈ cfg.sequence, c = 'b' ∨ c = 'l' ∨ c = 't' ∨ c = 'r') :
    ∃ n, 1 ≤ n ∧
      thinQ cfg (advIter cfg (initState cfg none none none none tn0) n) ∧
      (∀ m, 1 ≤ m → m < n →
        ¬ thinQ cfg (advIter cfg (initState cfg none none none none tn0) m)) ∧
      contract_boundary cfg none none none none tn0
          (fuelLeft cfg (initState cfg none none none none tn0)) =
        .contractedR
          (contractAllTensors (advIter cfg (initState cfg none none none none tn0) n).tn)
          (advIter cfg (initState cfg none none none none tn0) n) := by
  obtain ⟨n, hn1, hn2, hn3, hrun⟩ :=
    run_none_core cfg (initState cfg none none none none tn0) hA hne hval
      (fuelLeft cfg (initState cfg none none none none tn0)) 0
      (fun m h1 h2 => absurd h2 (by omega))
      (le_refl _)
  refine ⟨n, by omega, hn2, hn3, ?_⟩
  unfold contract_boundary
  rw [if_neg hne]
  exact hrun

/-- Witness for C1: a 2 by 2 lattice, `max_separation 0`, sequence "b". -/
theorem c1_thin_strip_stop_witness :
    ∃ n, 1 ≤ n ∧
      thinQ ⟨2, 2, none, 0, ['b']⟩
        (advIter ⟨2, 2, none, 0, ['b']⟩
          (initState ⟨2, 2, none, 0, ['b']⟩ none none none none (initTN 2 2)) n) ∧
      (∀ m, 1 ≤ m → m < n →
        ¬ thinQ ⟨2, 2, none, 0, ['b']⟩
          (advIter ⟨2, 2, none, 0, ['b']⟩
            (initState ⟨2, 2, none, 0, ['b']⟩ none none none none (initTN 2 2)) m)) ∧
      contract_boundary ⟨2, 2, none, 0, ['b']⟩ none none none none (initTN 2 2)
          (fuelLeft ⟨2, 2, none, 0, ['b']⟩
            (initState ⟨2, 2, none, 0, ['b']⟩ none none none none (initTN 2 2))) =
        .contractedR
          (contractAllTensors
            (advIter ⟨2, 2, none, 0, ['b']⟩
              (initState ⟨2, 2, none, 0, ['b']⟩ none none none none (initTN 2 2)) n).tn)
          (advIter ⟨2, 2, none, 0, ['b']⟩
            (initState ⟨2, 2, none, 0, ['b']⟩ none none none none (initTN 2 2)) n) :=
  c1_thin_strip_stop ⟨2, 2, none, 0, ['b']⟩ (initTN 2 2)
    (by decide) (by decide) (by decide) rfl (by decide)
    (by intro c hc; simp at hc; exact Or.inl hc)

/-- C4 counterexample: on a 1 by 1 lattice with `max_separation 1` and
sequence "b" the scheduler performs one directional absorption step before
its first thinness test, so the step count 1 exceeds the claimed bound
`(Lx - s) + (Ly - s) = 0`. -/
theorem c4_counterexample :
    (contract_boundary ⟨1, 1, none, 1, ['b']⟩ none none none none (initTN 1 1) 5).nstepsOf =
      some 1 ∧ ¬((1 : Int) ≤ ((1 : Int) - 1) + ((1 : Int) - 1)) := by
  constructor
  · decide
  · decide

/-- C4 (amended): with no protected region, a non-empty sequence of valid
direction letters and `max_separation s ≥ 1`, `contract_boundary`
terminates (explicit adequate fuel) and the number of directional
absorption steps it performs is at most `max ((Lx - s) + (Ly - s)) 1` —
the original bound `(Lx - s) + (Ly - s)` holds except that at least one
step is always performed before the first thinness test. -/
theorem c4_step_bound (cfg : BoundaryConfig) (tn0 : TN)
    (_hLx : 1 ≤ cfg.Lx) (_hLy : 1 ≤ cfg.Ly) (_hs : 1 ≤ cfg.max_separation)
    (hA : cfg.around = none) (hne : cfg.sequence ≠ [])
    (hval : ∀ c ∈ cfg.sequence, c = 'b' ∨ c = 'l' ∨ c = 't' ∨ c = 'r') :
    ∃ stF : SchedState,
      contract_boundary cfg none none none none tn0
          (fuelLeft cfg (initState cfg none none none none tn0)) =
        .contractedR (contractAllTensors stF.tn) stF ∧
      (stF.nsteps : Int) ≤
        max ((cfg.Lx - cfg.max_separation) + (cfg.Ly - cfg.max_separation)) 1 := by
  obtain ⟨n, hn1, hn2, hn3, hrun⟩ :=
    run_none_core cfg (initState cfg none none none none tn0) hA hne hval
      (fuelLeft cfg (initState cfg none none none none tn0)) 0
      (fun m h1 h2 => absurd h2 (by omega)) (le_refl _)
  refine ⟨advIter cfg (initState cfg none none none none tn0) n, ?_, ?_⟩
  · unfold contract_boundary
    rw [if_neg hne]
    exact hrun
  · have hnst : (advIter cfg (initState cfg none none none none tn0) n).nsteps =
        (initState cfg none none none none tn0).nsteps + n :=
      advIter_nsteps cfg _ hne hval n
    have hnst0 : (initState cfg none none none none tn0).nsteps = 0 := rfl
    rcases Nat.lt_or_ge n 2 with h2 | h2
    · have hn : n = 1 := by omega
      rw [hnst, hnst0, hn]
      exact_mod_cast le_max_right ((cfg.Lx - cfg.max_separation) +
        (cfg.Ly - cfg.max_separation)) 1
    · have hnt := hn3 (n - 1) (by omega) (by omega)
      simp only [thinQ, not_or, not_le] at hnt
      have hsp := advIter_spanSum cfg (initState cfg none none none none tn0) hne hval (n - 1)
      have hsp0 : spanSum (initState cfg none none none none tn0) =
          (cfg.Lx - 1) + (cfg.Ly - 1) := by
        simp [spanSum, initState, initFrontier]
      have hb : (n : Int) ≤ cfg.Lx + cfg.Ly - 2 * cfg.max_separation - 3 := by
        rw [hsp0] at hsp
        unfold spanSum at hsp
        omega
      rw [hnst, hnst0]
      refine le_trans ?_ (le_max_left _ _)
      push_cast
      omega

/-- Witness for C4 (amended): a 3 by 3 lattice with the default
parameters (`max_separation 1`, sequence "bltr"). -/
theorem c4_step_bound_witness :
    ∃ stF : SchedState,
      contract_boundary ⟨3, 3, none, 1, ['b', 'l', 't', 'r']⟩ none none none none (initTN 3 3)
          (fuelLeft ⟨3, 3, none, 1, ['b', 'l', 't', 'r']⟩
            (initState ⟨3, 3, none, 1, ['b', 'l', 't', 'r']⟩ none none none none (initTN 3 3))) =
        .contractedR (contractAllTensors stF.tn) stF ∧
      (stF.nsteps : Int) ≤ max (((3 : Int) - 1) + ((3 : Int) - 1)) 1 :=
  c4_step_bound ⟨3, 3, none, 1, ['b', 'l', 't', 'r']⟩ (initTN 3 3)
    (by decide) (by decide) (by decide) rfl (by decide)
    (by
      intro c hc
      simp at hc
      rcases hc with rfl | rfl | rfl | rfl
      · exact Or.inl rfl
      · exact Or.inr (Or.inl rfl)
      · exact Or.inr (Or.inr (Or.inl rfl))
      · exact Or.inr (Or.inr (Or.inr rfl)))

/-- `k` scheduler iterations that all continue (`.next`); `none` when the
run terminates, breaks or errors within the first `k` iterations. -/
def iterN (cfg : BoundaryConfig) : Nat → Nat → SchedState → Option SchedState
  | 0, _, st => some st
  | k + 1, pos, st =>
    match schedIter cfg (cfg.sequence.getD (pos % cfg.sequence.length) 'b') st with
    | .next st' => iterN cfg k (pos + 1) st'
    | _ => none

/-- The frontier describes a non-overlapping rectangle. -/
def rectOrdered (st : SchedState) : Prop :=
  st.fr.bottom ≤ st.fr.top ∧ st.fr.left ≤ st.fr.right

/-- Inductive frontier invariant of default-border runs: with a protected
region each edge is either still at its initial full-lattice position or
strictly outside the region's bounding box. -/
def frontierInv (cfg : BoundaryConfig) (st : SchedState) : Prop :=
  match cfg.around with
  | none => True
  | some ps =>
      (st.fr.bottom = 0 ∨ st.fr.bottom ≤ stop_i_min ps - 1) ∧
      (st.fr.top = cfg.Lx - 1 ∨ stop_i_max ps + 1 ≤ st.fr.top) ∧
      (st.fr.left = 0 ∨ st.fr.left ≤ stop_j_min ps - 1) ∧
      (st.fr.right = cfg.Ly - 1 ∨ stop_j_max ps + 1 ≤ st.fr.right)

theorem frontierInv_none (cfg : BoundaryConfig) (st : SchedState)
    (h : cfg.around = none) : frontierInv cfg st := by
  unfold frontierInv
  rw [h]
  trivial

theorem frontierInv_some (cfg : BoundaryConfig) (st : SchedState) (ps : List Coo)
    (h : cfg.around = some ps) :
    frontierInv cfg st ↔
      (st.fr.bottom = 0 ∨ st.fr.bottom ≤ stop_i_min ps - 1) ∧
      (st.fr.top = cfg.Lx - 1 ∨ stop_i_max ps + 1 ≤ st.fr.top) ∧
      (st.fr.left = 0 ∨ st.fr.left ≤ stop_j_min ps - 1) ∧
      (st.fr.right = cfg.Ly - 1 ∨ stop_j_max ps + 1 ≤ st.fr.right) := by
  unfold frontierInv
  rw [h]

theorem foldl_min_le (l : List Int) (a : Int) : l.foldl min a ≤ a := by
  induction l generalizing a with
  | nil => exact le_refl a
  | cons x xs ih => exact le_trans (ih (min a x)) (min_le_left a x)

theorem le_foldl_max (l : List Int) (a : Int) : a ≤ l.foldl max a := by
  induction l generalizing a with
  | nil => exact le_refl a
  | cons x xs ih => exact le_trans (le_max_left a x) (ih (max a x))

theorem le_foldl_min (l : List Int) (a lo : Int) (ha : lo ≤ a) (hl : ∀ x ∈ l, lo ≤ x) :
    lo ≤ l.foldl min a := by
  induction l generalizing a with
  | nil => exact ha
  | cons x xs ih =>
    exact ih (min a x) (le_min ha (hl x (List.mem_cons_self x xs)))
      (fun y hy => hl y (List.mem_cons_of_mem x hy))

theorem foldl_max_le (l : List Int) (a hi : Int) (ha : a ≤ hi) (hl : ∀ x ∈ l, x ≤ hi) :
    l.foldl max a ≤ hi := by
  induction l generalizing a with
  | nil => exact ha
  | cons x xs ih =>
    exact ih (max a x) (max_le ha (hl x (List.mem_cons_self x xs)))
      (fun y hy => hl y (List.mem_cons_of_mem x hy))

/-- For a nonempty `around` list of in-lattice coordinates the stop
bounding box is ordered and inside the lattice. -/
theorem stop_bounds (ps : List Coo) (hne : ps ≠ []) (Lx Ly : Int)
    (hin : ∀ c ∈ ps, 0 ≤ c.1 ∧ c.1 ≤ Lx - 1 ∧ 0 ≤ c.2 ∧ c.2 ≤ Ly - 1) :
    0 ≤ stop_i_min ps ∧ stop_i_min ps ≤ stop_i_max ps ∧ stop_i_max ps ≤ Lx - 1 ∧
    0 ≤ stop_j_min ps ∧ stop_j_min ps ≤ stop_j_max ps ∧ stop_j_max ps ≤ Ly - 1 := by
  match ps, hne with
  | p :: r, _ =>
    have hp := hin p (List.mem_cons_self p r)
    have hr1 : ∀ x ∈ r.map Prod.fst, 0 ≤ x := by
      intro x hx
      obtain ⟨c, hc, rfl⟩ := List.mem_map.mp hx
      exact (hin c (List.mem_cons_of_mem p hc)).1
    have hr2 : ∀ x ∈ r.map Prod.fst, x ≤ Lx - 1 := by
      intro x hx
      obtain ⟨c, hc, rfl⟩ := List.mem_map.mp hx
      exact (hin c (List.mem_cons_of_mem p hc)).2.1
    have hr3 : ∀ x ∈ r.map Prod.snd, 0 ≤ x := by
      intro x hx
      obtain ⟨c, hc, rfl⟩ := List.mem_map.mp hx
      exact (hin c (List.mem_cons_of_mem p hc)).2.2.1
    have hr4 : ∀ x ∈ r.map Prod.snd, x ≤ Ly - 1 := by
      intro x hx
      obtain ⟨c, hc, rfl⟩ := List.mem_map.mp hx
      exact (hin c (List.mem_cons_of_mem p hc)).2.2.2
    refine ⟨le_foldl_min _ _ _ hp.1 hr1,
      le_trans (foldl_min_le _ _) (le_foldl_max _ _),
      foldl_max_le _ _ _ hp.2.1 hr2,
      le_foldl_min _ _ _ hp.2.2.1 hr3,
      le_trans (foldl_min_le _ _) (le_foldl_max _ _),
      foldl_max_le _ _ _ hp.2.2.2 hr4⟩

theorem IterOut_state_postCheck (cfg : BoundaryConfig) (s : SchedState) :
    (postCheck cfg s).state = s := by
  unfold postCheck
  split <;> split <;> rfl

theorem postCheck_next_eq {cfg : BoundaryConfig} {s st1 : SchedState}
    (h : postCheck cfg s = .next st1) : st1 = s := by
  unfold postCheck at h
  split at h <;> split at h <;> cases h <;> rfl

theorem postCheck_none_not_thin {cfg : BoundaryConfig} {s st1 : SchedState}
    (harr : cfg.around = none) (h : postCheck cfg s = .next st1) : ¬ thinQ cfg s := by
  simp only [postCheck, harr] at h
  split at h
  · cases h
  next hthin => exact hthin

theorem schedIter_next_elim {cfg : BoundaryConfig} {d : Char} {st st1 : SchedState}
    (h : schedIter cfg d st = .next st1) :
    (d = 'b' ∨ d = 'l' ∨ d = 't' ∨ d = 'r') ∧
    st1 = (if canAdvance cfg d st then advanceState cfg d st else stallState d st) ∧
    (cfg.around = none → ¬ thinQ cfg st1) := by
  unfold schedIter at h
  split at h
  next hv =>
    have he := postCheck_next_eq h
    refine ⟨hv, he, fun harr => ?_⟩
    have hnt := postCheck_none_not_thin harr h
    rwa [← he] at hnt
  next hv => cases h

theorem advanceState_fr_b (cfg : BoundaryConfig) (st : SchedState) :
    (advanceState cfg 'b' st).fr = ⟨st.fr.bottom + 1, st.fr.top, st.fr.left, st.fr.right⟩ := by
  simp [advanceState]

theorem advanceState_fr_l (cfg : BoundaryConfig) (st : SchedState) :
    (advanceState cfg 'l' st).fr = ⟨st.fr.bottom, st.fr.top, st.fr.left + 1, st.fr.right⟩ := by
  simp [advanceState]

theorem advanceState_fr_t (cfg : BoundaryConfig) (st : SchedState) :
    (advanceState cfg 't' st).fr = ⟨st.fr.bottom, st.fr.top - 1, st.fr.left, st.fr.right⟩ := by
  simp [advanceState]

theorem advanceState_fr_r (cfg : BoundaryConfig) (st : SchedState) :
    (advanceState cfg 'r' st).fr = ⟨st.fr.bottom, st.fr.top, st.fr.left, st.fr.right - 1⟩ := by
  simp [advanceState]

theorem canAdvance_some_b {cfg : BoundaryConfig} {st : SchedState} {ps : List Coo}
    (h : cfg.around = some ps) :
    canAdvance cfg 'b' st = true ↔ st.fr.bottom + 1 < stop_i_min ps := by
  unfold canAdvance
  rw [h]
  simp

theorem canAdvance_some_l {cfg : BoundaryConfig} {st : SchedState} {ps : List Coo}
    (h : cfg.around = some ps) :
    canAdvance cfg 'l' st = true ↔ st.fr.left + 1 < stop_j_min ps := by
  unfold canAdvance
  rw [h]
  simp

theorem canAdvance_some_t {cfg : BoundaryConfig} {st : SchedState} {ps : List Coo}
    (h : cfg.around = some ps) :
    canAdvance cfg 't' st = true ↔ stop_i_max ps < st.fr.top - 1 := by
  unfold canAdvance
  rw [h]
  simp

theorem canAdvance_some_r {cfg : BoundaryConfig} {st : SchedState} {ps : List Coo}
    (h : cfg.around = some ps) :
    canAdvance cfg 'r' st = true ↔ stop_j_max ps < st.fr.right - 1 := by
  unfold canAdvance
  rw [h]
  simp

/-- One continuing scheduler iteration preserves the frontier invariant. -/
theorem frontierInv_step {cfg : BoundaryConfig} {d : Char} {st st1 : SchedState}
    (h : schedIter cfg d st = .next st1) (hI : frontierInv cfg st) :
    frontierInv cfg st1 := by
  obtain ⟨hv, he, -⟩ := schedIter_next_elim h
  rcases harr : cfg.around with _ | ps
  · exact frontierInv_none cfg st1 harr
  · rw [frontierInv_some cfg st ps harr] at hI
    rw [frontierInv_some cfg st1 ps harr]
    by_cases hca : canAdvance cfg d st = true
    · rw [if_pos hca] at he
      subst he
      rcases hv with rfl | rfl | rfl | rfl
      · rw [(canAdvance_some_b harr)] at hca
        rw [advanceState_fr_b]
        simp only
        omega
      · rw [(canAdvance_some_l harr)] at hca
        rw [advanceState_fr_l]
        simp only
        omega
      · rw [(canAdvance_some_t harr)] at hca
        rw [advanceState_fr_t]
        simp only
        omega
      · rw [(canAdvance_some_r harr)] at hca
        rw [advanceState_fr_r]
        simp only
        omega
    · rw [if_neg hca] at he
      subst he
      exact hI

theorem rectOrdered_of_not_thin {cfg : BoundaryConfig} {st : SchedState}
    (hs0 : 0 ≤ cfg.max_separation) (h : ¬ thinQ cfg st) : rectOrdered st := by
  simp only [thinQ, not_or, not_le] at h
  unfold rectOrdered
  omega

theorem rectOrdered_of_inv_some {cfg : BoundaryConfig} {st : SchedState} {ps : List Coo}
    (harr : cfg.around = some ps) (hne : ps ≠ [])
    (hin : ∀ c ∈ ps, 0 ≤ c.1 ∧ c.1 ≤ cfg.Lx - 1 ∧ 0 ≤ c.2 ∧ c.2 ≤ cfg.Ly - 1)
    (hLx : 1 ≤ cfg.Lx) (hLy : 1 ≤ cfg.Ly) (hI : frontierInv cfg st) : rectOrdered st := by
  obtain ⟨b1, b2, b3, b4, b5, b6⟩ := stop_bounds ps hne cfg.Lx cfg.Ly hin
  rw [frontierInv_some cfg st ps harr] at hI
  unfold rectOrdered
  omega

/-- Invariant and non-overlap along any chain of continuing iterations of
a well-configured run. -/
theorem iterN_invariant (cfg : BoundaryConfig)
    (hLx : 1 ≤ cfg.Lx) (hLy : 1 ≤ cfg.Ly)
    (hs0 : cfg.around = none → 0 ≤ cfg.max_separation)
    (hard : ∀ ps, cfg.around = some ps → ps ≠ [] ∧
      ∀ c ∈ ps, 0 ≤ c.1 ∧ c.1 ≤ cfg.Lx - 1 ∧ 0 ≤ c.2 ∧ c.2 ≤ cfg.Ly - 1) :
    ∀ (k pos : Nat) (st st' : SchedState), frontierInv cfg st → rectOrdered st →
      iterN cfg k pos st = some st' → frontierInv cfg st' ∧ rectOrdered st' := by
  intro k
  induction k with
  | zero =>
    intro pos st st' hI hO h
    cases h
    exact ⟨hI, hO⟩
  | succ k ih =>
    intro pos st st' hI hO h
    unfold iterN at h
    split at h
    next st1 hst1 =>
      have hI1 : frontierInv cfg st1 := frontierInv_step hst1 hI
      have hO1 : rectOrdered st1 := by
        rcases harr : cfg.around with _ | ps
        · exact rectOrdered_of_not_thin (hs0 harr)
            ((schedIter_next_elim hst1).2.2 harr)
        · exact rectOrdered_of_inv_some harr (hard ps harr).1 (hard ps harr).2 hLx hLy hI1
      exact ih (pos + 1) st1 st' hI1 hO1 h
    next hne => cases h

/-- C3 counterexample: with caller-overridden starting borders
`bottom=5, top=2` on a 20 by 20 lattice protecting `(10, 10)` with
sequence "b", the first scheduler iteration performs a directional
absorption and continues (it is not the final iteration), yet afterwards
`bottom = 6 > top = 2`: the claimed invariant does not hold for every
execution. -/
theorem c3_counterexample :
    (iterN ⟨20, 20, some [(10, 10)], 1, ['b']⟩ 1 0
        (initState ⟨20, 20, some [(10, 10)], 1, ['b']⟩ (some 5) (some 2) none none [])).map
      (fun st => st.fr) = some ⟨6, 2, 0, 19⟩ ∧
    ¬((6 : Int) ≤ 2) := by
  constructor
  · decide
  · decide

/-- C3 (amended): every scheduler iteration that performs a directional
absorption changes exactly one frontier variable by exactly one unit
toward the interior; and in every run with the default starting borders,
a lattice with `Lx, Ly ≥ 1`, `max_separation ≥ 0` when no region is
protected, and a nonempty in-lattice `around` list when one is, the
invariants `bottom ≤ top` and `left ≤ right` hold after every non-final
iteration. -/
theorem c3_frontier_monotone :
    (∀ (cfg : BoundaryConfig) (d : Char) (st : SchedState),
      (d = 'b' ∨ d = 'l' ∨ d = 't' ∨ d = 'r') → canAdvance cfg d st = true →
      (d = 'b' ∧ (schedIter cfg d st).state.fr =
        ⟨st.fr.bottom + 1, st.fr.top, st.fr.left, st.fr.right⟩) ∨
      (d = 'l' ∧ (schedIter cfg d st).state.fr =
        ⟨st.fr.bottom, st.fr.top, st.fr.left + 1, st.fr.right⟩) ∨
      (d = 't' ∧ (schedIter cfg d st).state.fr =
        ⟨st.fr.bottom, st.fr.top - 1, st.fr.left, st.fr.right⟩) ∨
      (d = 'r' ∧ (schedIter cfg d st).state.fr =
        ⟨st.fr.bottom, st.fr.top, st.fr.left, st.fr.right - 1⟩)) ∧
    (∀ (cfg : BoundaryConfig) (tn0 : TN) (k : Nat) (st : SchedState),
      1 ≤ cfg.Lx → 1 ≤ cfg.Ly →
      (cfg.around = none → 0 ≤ cfg.max_separation) →
      (∀ ps, cfg.around = some ps → ps ≠ [] ∧
        ∀ c ∈ ps, 0 ≤ c.1 ∧ c.1 ≤ cfg.Lx - 1 ∧ 0 ≤ c.2 ∧ c.2 ≤ cfg.Ly - 1) →
      iterN cfg k 0 (initState cfg none none none none tn0) = some st →
      st.fr.bottom ≤ st.fr.top ∧ st.fr.left ≤ st.fr.right) := by
  constructor
  · intro cfg d st hv hca
    have hstate : (schedIter cfg d st).state = advanceState cfg d st := by
      unfold schedIter
      rw [if_pos hv, if_pos hca, IterOut_state_postCheck]
    rcases hv with rfl | rfl | rfl | rfl
    · exact Or.inl ⟨rfl, by rw [hstate, advanceState_fr_b]⟩
    · exact Or.inr (Or.inl ⟨rfl, by rw [hstate, advanceState_fr_l]⟩)
    · exact Or.inr (Or.inr (Or.inl ⟨rfl, by rw [hstate, advanceState_fr_t]⟩))
    · exact Or.inr (Or.inr (Or.inr ⟨rfl, by rw [hstate, advanceState_fr_r]⟩))
  · intro cfg tn0 k st hLx hLy hs0 hard hrun
    have hI0 : frontierInv cfg (initState cfg none none none none tn0) := by
      rcases harr : cfg.around with _ | ps
      · exact frontierInv_none _ _ harr
      · rw [frontierInv_some _ _ ps harr]
        refine ⟨Or.inl rfl, Or.inl rfl, Or.inl rfl, Or.inl rfl⟩
    have hO0 : rectOrdered (initState cfg none none none none tn0) := by
      unfold rectOrdered initState initFrontier
      simp
      omega
    exact (iterN_invariant cfg hLx hLy hs0 hard k 0 _ st hI0 hO0 hrun).2

/-- Witness for C3 (amended) at concrete inputs: an advancing bottom
iteration moves only `bottom`, by one; and after one continuing iteration
of the default 3 by 3 run around `(1, 1)` the frontier is still ordered. -/
theorem c3_frontier_monotone_witness :
    (('b' = 'b' ∧ (schedIter ⟨3, 3, none, 1, ['b']⟩ 'b'
        (initState ⟨3, 3, none, 1, ['b']⟩ none none none none (initTN 3 3))).state.fr =
      ⟨0 + 1, 2, 0, 2⟩) ∨
     ('b' = 'l' ∧ (schedIter ⟨3, 3, none, 1, ['b']⟩ 'b'
        (initState ⟨3, 3, none, 1, ['b']⟩ none none none none (initTN 3 3))).state.fr =
      ⟨0, 2, 0 + 1, 2⟩) ∨
     ('b' = 't' ∧ (schedIter ⟨3, 3, none, 1, ['b']⟩ 'b'
        (initState ⟨3, 3, none, 1, ['b']⟩ none none none none (initTN 3 3))).state.fr =
      ⟨0, 2 - 1, 0, 2⟩) ∨
     ('b' = 'r' ∧ (schedIter ⟨3, 3, none, 1, ['b']⟩ 'b'
        (initState ⟨3, 3, none, 1, ['b']⟩ none none none none (initTN 3 3))).state.fr =
      ⟨0, 2, 0, 2 - 1⟩)) := by
  have h := c3_frontier_monotone.1 ⟨3, 3, none, 1, ['b']⟩ 'b'
    (initState ⟨3, 3, none, 1, ['b']⟩ none none none none (initTN 3 3))
    (Or.inl rfl) (by decide)
  simpa using h

/-- `all(reached_stop.values())` for the default "bltr" sequence. -/
def allF (st : SchedState) : Bool :=
  ((st.flags 'b' && st.flags 'l') && st.flags 't') && st.flags 'r'

theorem seq4_all (st : SchedState) :
    ((['b', 'l', 't', 'r'] : List Char).all fun c => st.flags c) = allF st := by
  simp [allF, Bool.and_assoc]

/-- Distance of the frontier to the rectangle one step outside `(i0, j0)`. -/
def frM (i0 j0 : Int) (st : SchedState) : Nat :=
  (i0 - 1 - st.fr.bottom).toNat + (st.fr.top - (i0 + 1)).toNat +
    (j0 - 1 - st.fr.left).toNat + (st.fr.right - (j0 + 1)).toNat

/-- Number of unset stop flags. -/
def flagM (st : SchedState) : Nat :=
  (if st.flags 'b' then 0 else 1) + (if st.flags 'l' then 0 else 1) +
    (if st.flags 't' then 0 else 1) + (if st.flags 'r' then 0 else 1)

/-- Termination measure for a run protecting the single coordinate
`(i0, j0)`. -/
def aroundMeasure (i0 j0 : Int) (st : SchedState) : Nat :=
  frM i0 j0 st + flagM st

/-- Run invariant of `contract_boundary` protecting the single interior
coordinate `(i0, j0)` with default borders: each edge lies between its
starting value and its stopping line (one step outside the coordinate), a
set stop flag pins its edge to the stopping line, and the tensor at
`(i0, j0)` is present, uncontracted, as its original singleton. -/
def aroundInv (Lx Ly i0 j0 : Int) (st : SchedState) : Prop :=
  0 ≤ st.fr.bottom ∧ st.fr.bottom ≤ i0 - 1 ∧
    (st.flags 'b' = true → st.fr.bottom = i0 - 1) ∧
  i0 + 1 ≤ st.fr.top ∧ st.fr.top ≤ Lx - 1 ∧
    (st.flags 't' = true → st.fr.top = i0 + 1) ∧
  0 ≤ st.fr.left ∧ st.fr.left ≤ j0 - 1 ∧
    (st.flags 'l' = true → st.fr.left = j0 - 1) ∧
  j0 + 1 ≤ st.fr.right ∧ st.fr.right ≤ Ly - 1 ∧
    (st.flags 'r' = true → st.fr.right = j0 + 1) ∧
  [((i0 : Int), (j0 : Int))] ∈ st.tn

/-- The direction letter visited at loop position `pos` of the default
"bltr" cycle. -/
def dirAt (pos : Nat) : Char := (['b', 'l', 't', 'r'] : List Char).getD (pos % 4) 'b'

/-- Number of consecutive already-stopped directions from position `pos`. -/
def cSlack (st : SchedState) (pos : Nat) : Nat :=
  if st.flags (dirAt pos) = false then 0
  else if st.flags (dirAt (pos + 1)) = false then 1
  else if st.flags (dirAt (pos + 2)) = false then 2
  else if st.flags (dirAt (pos + 3)) = false then 3
  else 4

theorem dirAt_add4 (pos : Nat) : dirAt (pos + 4) = dirAt pos := by
  unfold dirAt
  congr 1
  omega

theorem dirAt_valid (pos : Nat) :
    dirAt pos = 'b' ∨ dirAt pos = 'l' ∨ dirAt pos = 't' ∨ dirAt pos = 'r' := by
  have h4 : pos % 4 = 0 ∨ pos % 4 = 1 ∨ pos % 4 = 2 ∨ pos % 4 = 3 := by omega
  unfold dirAt
  rcases h4 with hr | hr | hr | hr <;> rw [hr] <;> simp

theorem allF_of_four (st : SchedState) (pos : Nat)
    (w1 : st.flags (dirAt pos) = true) (w2 : st.flags (dirAt (pos + 1)) = true)
    (w3 : st.flags (dirAt (pos + 2)) = true) (w4 : st.flags (dirAt (pos + 3)) = true) :
    allF st = true := by
  have h4 : pos % 4 = 0 ∨ pos % 4 = 1 ∨ pos % 4 = 2 ∨ pos % 4 = 3 := by omega
  rcases h4 with hr | hr | hr | hr
  · rw [show dirAt pos = 'b' from by unfold dirAt; simp [hr]] at w1
    rw [show dirAt (pos + 1) = 'l' from by unfold dirAt; simp [Nat.add_mod, hr]] at w2
    rw [show dirAt (pos + 2) = 't' from by unfold dirAt; simp [Nat.add_mod, hr]] at w3
    rw [show dirAt (pos + 3) = 'r' from by unfold dirAt; simp [Nat.add_mod, hr]] at w4
    unfold allF
    rw [w1, w2, w3, w4]
    rfl
  · rw [show dirAt pos = 'l' from by unfold dirAt; simp [hr]] at w1
    rw [show dirAt (pos + 1) = 't' from by unfold dirAt; simp [Nat.add_mod, hr]] at w2
    rw [show dirAt (pos + 2) = 'r' from by unfold dirAt; simp [Nat.add_mod, hr]] at w3
    rw [show dirAt (pos + 3) = 'b' from by unfold dirAt; simp [Nat.add_mod, hr]] at w4
    unfold allF
    rw [w1, w2, w3, w4]
    rfl
  · rw [show dirAt pos = 't' from by unfold dirAt; simp [hr]] at w1
    rw [show dirAt (pos + 1) = 'r' from by unfold dirAt; simp [Nat.add_mod, hr]] at w2
    rw [show dirAt (pos + 2) = 'b' from by unfold dirAt; simp [Nat.add_mod, hr]] at w3
    rw [show dirAt (pos + 3) = 'l' from by unfold dirAt; simp [Nat.add_mod, hr]] at w4
    unfold allF
    rw [w1, w2, w3, w4]
    rfl
  · rw [show dirAt pos = 'r' from by unfold dirAt; simp [hr]] at w1
    rw [show dirAt (pos + 1) = 'b' from by unfold dirAt; simp [Nat.add_mod, hr]] at w2
    rw [show dirAt (pos + 2) = 'l' from by unfold dirAt; simp [Nat.add_mod, hr]] at w3
    rw [show dirAt (pos + 3) = 't' from by unfold dirAt; simp [Nat.add_mod, hr]] at w4
    unfold allF
    rw [w1, w2, w3, w4]
    rfl

theorem cSlack_le_three (st : SchedState) (pos : Nat) (h : allF st = false) :
    cSlack st pos ≤ 3 := by
  unfold cSlack
  split_ifs with w1 w2 w3 w4
  · omega
  · omega
  · omega
  · omega
  · exfalso
    simp only [Bool.not_eq_false] at w1 w2 w3 w4
    rw [allF_of_four st pos w1 w2 w3 w4] at h
    cases h

theorem cSlack_pos (st : SchedState) (pos : Nat) (hfd : st.flags (dirAt pos) = true) :
    1 ≤ cSlack st pos := by
  unfold cSlack
  rw [if_neg (by rw [hfd]; simp)]
  split_ifs <;> omega

theorem cSlack_succ_of_flag (st : SchedState) (pos : Nat)
    (hfd : st.flags (dirAt pos) = true) (hA : allF st = false) :
    cSlack st (pos + 1) + 1 = cSlack st pos := by
  have hR : cSlack st pos =
      if st.flags (dirAt (pos + 1)) = false then 1
      else if st.flags (dirAt (pos + 2)) = false then 2
      else if st.flags (dirAt (pos + 3)) = false then 3
      else 4 := by
    unfold cSlack
    rw [if_neg (by rw [hfd]; simp)]
  have hL : cSlack st (pos + 1) =
      if st.flags (dirAt (pos + 1)) = false then 0
      else if st.flags (dirAt (pos + 2)) = false then 1
      else if st.flags (dirAt (pos + 3)) = false then 2
      else if st.flags (dirAt pos) = false then 3
      else 4 := by
    unfold cSlack
    simp only [show pos + 1 + 1 = pos + 2 from rfl, show pos + 1 + 2 = pos + 3 from rfl,
      show pos + 1 + 3 = pos + 4 from rfl, dirAt_add4]
  rw [hL, hR]
  split_ifs with w1 w2 w3 w4
  · rfl
  · rfl
  · rfl
  · simp [hfd] at w4
  · exfalso
    simp only [Bool.not_eq_false] at w1 w2 w3
    rw [allF_of_four st pos hfd w1 w2 w3] at hA
    cases hA

theorem allF_false_of_flag (st : SchedState) (d : Char)
    (hv : d = 'b' ∨ d = 'l' ∨ d = 't' ∨ d = 'r') (h : st.flags d = false) :
    allF st = false := by
  rcases hv with rfl | rfl | rfl | rfl <;> simp [allF, h]

theorem stallState_eq_self (d : Char) (st : SchedState) (h : st.flags d = true) :
    stallState d st = st := by
  cases st with
  | mk fr fl tn ns =>
    unfold stallState
    simp only
    congr 1
    funext c
    by_cases hc : c = d
    · rw [if_pos hc, hc]
      exact h.symm
    · rw [if_neg hc]

theorem postCheck_some (cfg : BoundaryConfig) (ps : List Coo) (st : SchedState)
    (h : cfg.around = some ps) :
    postCheck cfg st =
      if (cfg.sequence.all fun c => st.flags c) = true then .networkI st else .next st := by
  simp only [postCheck, h]

theorem mem_contractTags2_of_ne {tn : TN} {t : T2D} {c1 c2 : Coo}
    (ht : t ∈ tn) (h1 : c1 ∉ t) (h2 : c2 ∉ t) : t ∈ contractTags2 tn c1 c2 := by
  unfold contractTags2
  apply List.mem_append_left
  apply List.mem_filter.mpr
  refine ⟨ht, ?_⟩
  simp [tensorHas, h1, h2]

theorem mem_foldl_contract (pairs : List (Coo × Coo)) (t : T2D) :
    ∀ tn : TN, t ∈ tn → (∀ p ∈ pairs, p.1 ∉ t ∧ p.2 ∉ t) →
      t ∈ pairs.foldl (fun acc p => contractTags2 acc p.1 p.2) tn := by
  induction pairs with
  | nil =>
    intro tn ht _
    exact ht
  | cons p ps ih =>
    intro tn ht hsafe
    simp only [List.foldl_cons]
    exact ih _ (mem_contractTags2_of_ne ht (hsafe p (List.mem_cons_self p ps)).1
        (hsafe p (List.mem_cons_self p ps)).2)
      (fun q hq => hsafe q (List.mem_cons_of_mem p hq))

theorem mem_applyContractions (pairs : List (Coo × Coo)) (t : T2D) (tn : TN)
    (ht : t ∈ tn) (hsafe : ∀ p ∈ pairs, p.1 ∉ t ∧ p.2 ∉ t) :
    t ∈ applyContractions pairs tn :=
  mem_foldl_contract pairs t tn ht hsafe

theorem mem_bottomPairs {Lx Ly x1 x2 y1 y2 : Int} {p : Coo × Coo}
    (hp : p ∈ bottomPairs Lx Ly (x1, x2) (y1, y2)) :
    ∃ i j, (min x1 x2 ≤ i ∧ i < max x1 x2) ∧ (min y1 y2 ≤ j ∧ j < max y1 y2 + 1) ∧
      p = (siteTagCoo Lx Ly i j, siteTagCoo Lx Ly (i + 1) j) := by
  unfold bottomPairs at hp
  simp only [List.mem_flatten, List.mem_map] at hp
  obtain ⟨row, ⟨i, hi, rfl⟩, hp2⟩ := hp
  obtain ⟨j, hj, rfl⟩ := List.mem_map.mp hp2
  exact ⟨i, j, mem_intRange.mp hi, mem_intRange.mp hj, rfl⟩

theorem mem_topPairs {Lx Ly x1 x2 y1 y2 : Int} {p : Coo × Coo}
    (hp : p ∈ topPairs Lx Ly (x1, x2) (y1, y2)) :
    ∃ i j, (min x1 x2 < i ∧ i ≤ max x1 x2) ∧ (min y1 y2 ≤ j ∧ j < max y1 y2 + 1) ∧
      p = (siteTagCoo Lx Ly i j, siteTagCoo Lx Ly (i - 1) j) := by
  unfold topPairs at hp
  simp only [List.mem_flatten, List.mem_map] at hp
  obtain ⟨row, ⟨i, hi, rfl⟩, hp2⟩ := hp
  obtain ⟨j, hj, rfl⟩ := List.mem_map.mp hp2
  exact ⟨i, j, mem_intRangeDown.mp hi, mem_intRange.mp hj, rfl⟩

theorem mem_leftPairs {Lx Ly x1 x2 y1 y2 : Int} {p : Coo × Coo}
    (hp : p ∈ leftPairs Lx Ly (y1, y2) (x1, x2)) :
    ∃ i j, (min x1 x2 ≤ i ∧ i < max x1 x2 + 1) ∧ (min y1 y2 ≤ j ∧ j < max y1 y2) ∧
      p = (siteTagCoo Lx Ly i j, siteTagCoo Lx Ly i (j + 1)) := by
  unfold leftPairs at hp
  simp only [List.mem_flatten, List.mem_map] at hp
  obtain ⟨row, ⟨j, hj, rfl⟩, hp2⟩ := hp
  obtain ⟨i, hi, rfl⟩ := List.mem_map.mp hp2
  exact ⟨i, j, mem_intRange.mp hi, mem_intRange.mp hj, rfl⟩

theorem mem_rightPairs {Lx Ly x1 x2 y1 y2 : Int} {p : Coo × Coo}
    (hp : p ∈ rightPairs Lx Ly (y1, y2) (x1, x2)) :
    ∃ i j, (min x1 x2 ≤ i ∧ i < max x1 x2 + 1) ∧ (min y1 y2 < j ∧ j ≤ max y1 y2) ∧
      p = (siteTagCoo Lx Ly i j, siteTagCoo Lx Ly i (j - 1)) := by
  unfold rightPairs at hp
  simp only [List.mem_flatten, List.mem_map] at hp
  obtain ⟨row, ⟨j, hj, rfl⟩, hp2⟩ := hp
  obtain ⟨i, hi, rfl⟩ := List.mem_map.mp hp2
  exact ⟨i, j, mem_intRange.mp hi, mem_intRangeDown.mp hj, rfl⟩

theorem bottomPairs_safe {Lx Ly i0 j0 b yl yr : Int}
    (hb0 : 0 ≤ b) (hbi : b + 1 < i0) (hiL : i0 ≤ Lx - 1) :
    ∀ p ∈ bottomPairs Lx Ly (b, b + 1) (yl, yr),
      p.1 ∉ ([((i0 : Int), (j0 : Int))] : T2D) ∧ p.2 ∉ ([((i0 : Int), (j0 : Int))] : T2D) := by
  intro p hp
  obtain ⟨i, j, hi, hj, rfl⟩ := mem_bottomPairs hp
  rw [min_eq_left (by omega : (b : Int) ≤ b + 1),
    max_eq_right (by omega : (b : Int) ≤ b + 1)] at hi
  constructor
  · simp only [siteTagCoo, List.mem_singleton]
    intro hcon
    rw [Prod.mk.injEq] at hcon
    have hmod : i % Lx = i := Int.emod_eq_of_lt (by omega) (by omega)
    omega
  · simp only [siteTagCoo, List.mem_singleton]
    intro hcon
    rw [Prod.mk.injEq] at hcon
    have hmod : (i + 1) % Lx = i + 1 := Int.emod_eq_of_lt (by omega) (by omega)
    omega

theorem topPairs_safe {Lx Ly i0 j0 t yl yr : Int}
    (hi00 : 0 ≤ i0) (hti : i0 < t - 1) (htL : t ≤ Lx - 1) :
    ∀ p ∈ topPairs Lx Ly (t, t - 1) (yl, yr),
      p.1 ∉ ([((i0 : Int), (j0 : Int))] : T2D) ∧ p.2 ∉ ([((i0 : Int), (j0 : Int))] : T2D) := by
  intro p hp
  obtain ⟨i, j, hi, hj, rfl⟩ := mem_topPairs hp
  rw [min_eq_right (by omega : (t : Int) - 1 ≤ t),
    max_eq_left (by omega : (t : Int) - 1 ≤ t)] at hi
  constructor
  · simp only [siteTagCoo, List.mem_singleton]
    intro hcon
    rw [Prod.mk.injEq] at hcon
    have hmod : i % Lx = i := Int.emod_eq_of_lt (by omega) (by omega)
    omega
  · simp only [siteTagCoo, List.mem_singleton]
    intro hcon
    rw [Prod.mk.injEq] at hcon
    have hmod : (i - 1) % Lx = i - 1 := Int.emod_eq_of_lt (by omega) (by omega)
    omega

theorem leftPairs_safe {Lx Ly i0 j0 le xb xt : Int}
    (hl0 : 0 ≤ le) (hlj : le + 1 < j0) (hjL : j0 ≤ Ly - 1) :
    ∀ p ∈ leftPairs Lx Ly (le, le + 1) (xb, xt),
      p.1 ∉ ([((i0 : Int), (j0 : Int))] : T2D) ∧ p.2 ∉ ([((i0 : Int), (j0 : Int))] : T2D) := by
  intro p hp
  obtain ⟨i, j, hi, hj, rfl⟩ := mem_leftPairs hp
  rw [min_eq_left (by omega : (le : Int) ≤ le + 1),
    max_eq_right (by omega : (le : Int) ≤ le + 1)] at hj
  constructor
  · simp only [siteTagCoo, List.mem_singleton]
    intro hcon
    rw [Prod.mk.injEq] at hcon
    have hmod : j % Ly = j := Int.emod_eq_of_lt (by omega) (by omega)
    omega
  · simp only [siteTagCoo, List.mem_singleton]
    intro hcon
    rw [Prod.mk.injEq] at hcon
    have hmod : (j + 1) % Ly = j + 1 := Int.emod_eq_of_lt (by omega) (by omega)
    omega

theorem rightPairs_safe {Lx Ly i0 j0 ri xb xt : Int}
    (hj00 : 0 ≤ j0) (hrj : j0 < ri - 1) (hrL : ri ≤ Ly - 1) :
    ∀ p ∈ rightPairs Lx Ly (ri, ri - 1) (xb, xt),
      p.1 ∉ ([((i0 : Int), (j0 : Int))] : T2D) ∧ p.2 ∉ ([((i0 : Int), (j0 : Int))] : T2D) := by
  intro p hp
  obtain ⟨i, j, hi, hj, rfl⟩ := mem_rightPairs hp
  rw [min_eq_right (by omega : (ri : Int) - 1 ≤ ri),
    max_eq_left (by omega : (ri : Int) - 1 ≤ ri)] at hj
  constructor
  · simp only [siteTagCoo, List.mem_singleton]
    intro hcon
    rw [Prod.mk.injEq] at hcon
    have hmod : j % Ly = j := Int.emod_eq_of_lt (by omega) (by omega)
    omega
  · simp only [siteTagCoo, List.mem_singleton]
    intro hcon
    rw [Prod.mk.injEq] at hcon
    have hmod : (j - 1) % Ly = j - 1 := Int.emod_eq_of_lt (by omega) (by omega)
    omega

theorem advanceState_flags (cfg : BoundaryConfig) (d : Char) (st : SchedState)
    (hv : d = 'b' ∨ d = 'l' ∨ d = 't' ∨ d = 'r') :
    (advanceState cfg d st).flags = st.flags := by
  rcases hv with rfl | rfl | rfl | rfl <;> simp [advanceState]

theorem advanceState_tn_b (cfg : BoundaryConfig) (st : SchedState) :
    (advanceState cfg 'b' st).tn =
      absorbFromBottom cfg.Lx cfg.Ly (st.fr.bottom, st.fr.bottom + 1)
        (st.fr.left, st.fr.right) st.tn := by
  simp [advanceState]

theorem advanceState_tn_l (cfg : BoundaryConfig) (st : SchedState) :
    (advanceState cfg 'l' st).tn =
      absorbFromLeft cfg.Lx cfg.Ly (st.fr.left, st.fr.left + 1)
        (st.fr.bottom, st.fr.top) st.tn := by
  simp [advanceState]

theorem advanceState_tn_t (cfg : BoundaryConfig) (st : SchedState) :
    (advanceState cfg 't' st).tn =
      absorbFromTop cfg.Lx cfg.Ly (st.fr.top, st.fr.top - 1)
        (st.fr.left, st.fr.right) st.tn := by
  simp [advanceState]

theorem advanceState_tn_r (cfg : BoundaryConfig) (st : SchedState) :
    (advanceState cfg 'r' st).tn =
      absorbFromRight cfg.Lx cfg.Ly (st.fr.right, st.fr.right - 1)
        (st.fr.bottom, st.fr.top) st.tn := by
  simp [advanceState]

theorem stallState_fr (d : Char) (st : SchedState) : (stallState d st).fr = st.fr := rfl

theorem stallState_tn (d : Char) (st : SchedState) : (stallState d st).tn = st.tn := rfl

/-- An advancing iteration of the single-coordinate protected run
preserves the invariant, leaves the stop flags unchanged, decreases the
frontier measure by one, and can only happen while the direction's own
stop flag is still unset. -/
theorem around_advance (Lx Ly i0 j0 s : Int)
    (hi2 : i0 ≤ Lx - 2) (hj2 : j0 ≤ Ly - 2)
    (d : Char) (st : SchedState)
    (hv : d = 'b' ∨ d = 'l' ∨ d = 't' ∨ d = 'r')
    (hP : aroundInv Lx Ly i0 j0 st)
    (hca : canAdvance ⟨Lx, Ly, some [(i0, j0)], s, ['b', 'l', 't', 'r']⟩ d st = true) :
    aroundInv Lx Ly i0 j0
        (advanceState ⟨Lx, Ly, some [(i0, j0)], s, ['b', 'l', 't', 'r']⟩ d st) ∧
    (advanceState ⟨Lx, Ly, some [(i0, j0)], s, ['b', 'l', 't', 'r']⟩ d st).flags = st.flags ∧
    frM i0 j0 (advanceState ⟨Lx, Ly, some [(i0, j0)], s, ['b', 'l', 't', 'r']⟩ d st) + 1 =
      frM i0 j0 st ∧
    st.flags d = false := by
  obtain ⟨p1, p2, p3, p4, p5, p6, p7, p8, p9, p10, p11, p12, p13⟩ := hP
  have hfl := advanceState_flags ⟨Lx, Ly, some [(i0, j0)], s, ['b', 'l', 't', 'r']⟩ d st hv
  rcases hv with rfl | rfl | rfl | rfl
  · rw [canAdvance_some_b rfl,
      show stop_i_min [((i0 : Int), (j0 : Int))] = i0 from rfl] at hca
    have hfd : st.flags 'b' = false := by
      cases hb : st.flags 'b'
      · rfl
      · exact absurd (p3 hb) (by omega)
    have e1 : (advanceState ⟨Lx, Ly, some [(i0, j0)], s, ['b', 'l', 't', 'r']⟩ 'b' st).fr.bottom =
        st.fr.bottom + 1 := by rw [advanceState_fr_b]
    have e2 : (advanceState ⟨Lx, Ly, some [(i0, j0)], s, ['b', 'l', 't', 'r']⟩ 'b' st).fr.top =
        st.fr.top := by rw [advanceState_fr_b]
    have e3 : (advanceState ⟨Lx, Ly, some [(i0, j0)], s, ['b', 'l', 't', 'r']⟩ 'b' st).fr.left =
        st.fr.left := by rw [advanceState_fr_b]
    have e4 : (advanceState ⟨Lx, Ly, some [(i0, j0)], s, ['b', 'l', 't', 'r']⟩ 'b' st).fr.right =
        st.fr.right := by rw [advanceState_fr_b]
    have htn : (advanceState ⟨Lx, Ly, some [(i0, j0)], s, ['b', 'l', 't', 'r']⟩ 'b' st).tn =
        absorbFromBottom Lx Ly (st.fr.bottom, st.fr.bottom + 1)
          (st.fr.left, st.fr.right) st.tn := by
      simp [advanceState]
    refine ⟨?_, hfl, ?_, hfd⟩
    · unfold aroundInv
      rw [e1, e2, e3, e4, hfl, htn]
      refine ⟨by omega, by omega, fun h => absurd h (by rw [hfd]; simp),
        p4, p5, p6, p7, p8, p9, p10, p11, p12, ?_⟩
      exact mem_applyContractions _ _ _ p13 (bottomPairs_safe p1 hca (by omega))
    · unfold frM
      rw [e1, e2, e3, e4]
      omega
  · rw [canAdvance_some_l rfl,
      show stop_j_min [((i0 : Int), (j0 : Int))] = j0 from rfl] at hca
    have hfd : st.flags 'l' = false := by
      cases hb : st.flags 'l'
      · rfl
      · exact absurd (p9 hb) (by omega)
    have e1 : (advanceState ⟨Lx, Ly, some [(i0, j0)], s, ['b', 'l', 't', 'r']⟩ 'l' st).fr.bottom =
        st.fr.bottom := by rw [advanceState_fr_l]
    have e2 : (advanceState ⟨Lx, Ly, some [(i0, j0)], s, ['b', 'l', 't', 'r']⟩ 'l' st).fr.top =
        st.fr.top := by rw [advanceState_fr_l]
    have e3 : (advanceState ⟨Lx, Ly, some [(i0, j0)], s, ['b', 'l', 't', 'r']⟩ 'l' st).fr.left =
        st.fr.left + 1 := by rw [advanceState_fr_l]
    have e4 : (advanceState ⟨Lx, Ly, some [(i0, j0)], s, ['b', 'l', 't', 'r']⟩ 'l' st).fr.right =
        st.fr.right := by rw [advanceState_fr_l]
    have htn : (advanceState ⟨Lx, Ly, some [(i0, j0)], s, ['b', 'l', 't', 'r']⟩ 'l' st).tn =
        absorbFromLeft Lx Ly (st.fr.left, st.fr.left + 1)
          (st.fr.bottom, st.fr.top) st.tn := by
      simp [advanceState]
    refine ⟨?_, hfl, ?_, hfd⟩
    · unfold aroundInv
      rw [e1, e2, e3, e4, hfl, htn]
      refine ⟨p1, p2, p3, p4, p5, p6, by omega, by omega,
        fun h => absurd h (by rw [hfd]; simp), p10, p11, p12, ?_⟩
      exact mem_applyContractions _ _ _ p13 (leftPairs_safe p7 hca (by omega))
    · unfold frM
      rw [e1, e2, e3, e4]
      omega
  · rw [canAdvance_some_t rfl,
      show stop_i_max [((i0 : Int), (j0 : Int))] = i0 from rfl] at hca
    have hfd : st.flags 't' = false := by
      cases hb : st.flags 't'
      · rfl
      · exact absurd (p6 hb) (by omega)
    have e1 : (advanceState ⟨Lx, Ly, some [(i0, j0)], s, ['b', 'l', 't', 'r']⟩ 't' st).fr.bottom =
        st.fr.bottom := by rw [advanceState_fr_t]
    have e2 : (advanceState ⟨Lx, Ly, some [(i0, j0)], s, ['b', 'l', 't', 'r']⟩ 't' st).fr.top =
        st.fr.top - 1 := by rw [advanceState_fr_t]
    have e3 : (advanceState ⟨Lx, Ly, some [(i0, j0)], s, ['b', 'l', 't', 'r']⟩ 't' st).fr.left =
        st.fr.left := by rw [advanceState_fr_t]
    have e4 : (advanceState ⟨Lx, Ly, some [(i0, j0)], s, ['b', 'l', 't', 'r']⟩ 't' st).fr.right =
        st.fr.right := by rw [advanceState_fr_t]
    have htn : (advanceState ⟨Lx, Ly, some [(i0, j0)], s, ['b', 'l', 't', 'r']⟩ 't' st).tn =
        absorbFromTop Lx Ly (st.fr.top, st.fr.top - 1)
          (st.fr.left, st.fr.right) st.tn := by
      simp [advanceState]
    refine ⟨?_, hfl, ?_, hfd⟩
    · unfold aroundInv
      rw [e1, e2, e3, e4, hfl, htn]
      refine ⟨p1, p2, p3, by omega, by omega,
        fun h => absurd h (by rw [hfd]; simp), p7, p8, p9, p10, p11, p12, ?_⟩
      exact mem_applyContractions _ _ _ p13 (topPairs_safe (by omega) hca (by omega))
    · unfold frM
      rw [e1, e2, e3, e4]
      omega
  · rw [canAdvance_some_r rfl,
      show stop_j_max [((i0 : Int), (j0 : Int))] = j0 from rfl] at hca
    have hfd : st.flags 'r' = false := by
      cases hb : st.flags 'r'
      · rfl
      · exact absurd (p12 hb) (by omega)
    have e1 : (advanceState ⟨Lx, Ly, some [(i0, j0)], s, ['b', 'l', 't', 'r']⟩ 'r' st).fr.bottom =
        st.fr.bottom := by rw [advanceState_fr_r]
    have e2 : (advanceState ⟨Lx, Ly, some [(i0, j0)], s, ['b', 'l', 't', 'r']⟩ 'r' st).fr.top =
        st.fr.top := by rw [advanceState_fr_r]
    have e3 : (advanceState ⟨Lx, Ly, some [(i0, j0)], s, ['b', 'l', 't', 'r']⟩ 'r' st).fr.left =
        st.fr.left := by rw [advanceState_fr_r]
    have e4 : (advanceState ⟨Lx, Ly, some [(i0, j0)], s, ['b', 'l', 't', 'r']⟩ 'r' st).fr.right =
        st.fr.right - 1 := by rw [advanceState_fr_r]
    have htn : (advanceState ⟨Lx, Ly, some [(i0, j0)], s, ['b', 'l', 't', 'r']⟩ 'r' st).tn =
        absorbFromRight Lx Ly (st.fr.right, st.fr.right - 1)
          (st.fr.bottom, st.fr.top) st.tn := by
      simp [advanceState]
    refine ⟨?_, hfl, ?_, hfd⟩
    · unfold aroundInv
      rw [e1, e2, e3, e4, hfl, htn]
      refine ⟨p1, p2, p3, p4, p5, p6, p7, p8, p9, by omega, by omega,
        fun h => absurd h (by rw [hfd]; simp), ?_⟩
      exact mem_applyContractions _ _ _ p13 (rightPairs_safe (by omega) hca (by omega))
    · unfold frM
      rw [e1, e2, e3, e4]
      omega

/-- A stalling iteration of the single-coordinate protected run preserves
the invariant (the newly set flag's edge is pinned at its stopping line). -/
theorem around_stall (Lx Ly i0 j0 s : Int)
    (d : Char) (st : SchedState)
    (hv : d = 'b' ∨ d = 'l' ∨ d = 't' ∨ d = 'r')
    (hP : aroundInv Lx Ly i0 j0 st)
    (hca : ¬ canAdvance ⟨Lx, Ly, some [(i0, j0)], s, ['b', 'l', 't', 'r']⟩ d st = true) :
    aroundInv Lx Ly i0 j0 (stallState d st) := by
  obtain ⟨p1, p2, p3, p4, p5, p6, p7, p8, p9, p10, p11, p12, p13⟩ := hP
  rcases hv with rfl | rfl | rfl | rfl
  · have hnc0 : ¬ st.fr.bottom + 1 < stop_i_min [((i0 : Int), (j0 : Int))] :=
      fun hlt => hca ((canAdvance_some_b rfl).mpr hlt)
    rw [show stop_i_min [((i0 : Int), (j0 : Int))] = i0 from rfl] at hnc0
    refine ⟨p1, p2, fun _ => by show st.fr.bottom = i0 - 1; omega, p4, p5, ?_,
      p7, p8, ?_, p10, p11, ?_, p13⟩
    · intro h
      exact p6 (by simpa [stallState] using h)
    · intro h
      exact p9 (by simpa [stallState] using h)
    · intro h
      exact p12 (by simpa [stallState] using h)
  · have hnc0 : ¬ st.fr.left + 1 < stop_j_min [((i0 : Int), (j0 : Int))] :=
      fun hlt => hca ((canAdvance_some_l rfl).mpr hlt)
    rw [show stop_j_min [((i0 : Int), (j0 : Int))] = j0 from rfl] at hnc0
    refine ⟨p1, p2, ?_, p4, p5, ?_, p7, p8,
      fun _ => by show st.fr.left = j0 - 1; omega, p10, p11, ?_, p13⟩
    · intro h
      exact p3 (by simpa [stallState] using h)
    · intro h
      exact p6 (by simpa [stallState] using h)
    · intro h
      exact p12 (by simpa [stallState] using h)
  · have hnc0 : ¬ stop_i_max [((i0 : Int), (j0 : Int))] < st.fr.top - 1 :=
      fun hlt => hca ((canAdvance_some_t rfl).mpr hlt)
    rw [show stop_i_max [((i0 : Int), (j0 : Int))] = i0 from rfl] at hnc0
    refine ⟨p1, p2, ?_, p4, p5, fun _ => by show st.fr.top = i0 + 1; omega, p7, p8, ?_,
      p10, p11, ?_, p13⟩
    · intro h
      exact p3 (by simpa [stallState] using h)
    · intro h
      exact p9 (by simpa [stallState] using h)
    · intro h
      exact p12 (by simpa [stallState] using h)
  · have hnc0 : ¬ stop_j_max [((i0 : Int), (j0 : Int))] < st.fr.right - 1 :=
      fun hlt => hca ((canAdvance_some_r rfl).mpr hlt)
    rw [show stop_j_max [((i0 : Int), (j0 : Int))] = j0 from rfl] at hnc0
    refine ⟨p1, p2, ?_, p4, p5, ?_, p7, p8, ?_, p10, p11,
      fun _ => by show st.fr.right = j0 + 1; omega, p13⟩
    · intro h
      exact p3 (by simpa [stallState] using h)
    · intro h
      exact p6 (by simpa [stallState] using h)
    · intro h
      exact p9 (by simpa [stallState] using h)

theorem flagM_stall (d : Char) (st : SchedState)
    (hv : d = 'b' ∨ d = 'l' ∨ d = 't' ∨ d = 'r') (hfdf : st.flags d = false) :
    flagM (stallState d st) + 1 = flagM st := by
  rcases hv with rfl | rfl | rfl | rfl <;>
    (unfold flagM; simp [stallState, hfdf]) <;> omega

theorem mem_initTN {Lx Ly i j : Int} (hi1 : 0 ≤ i) (hi2 : i < Lx) (hj1 : 0 ≤ j)
    (hj2 : j < Ly) : [(i, j)] ∈ initTN Lx Ly := by
  unfold initTN
  simp only [List.mem_flatten, List.mem_map]
  refine ⟨(intRange 0 Ly).map (fun jj => ([(i, jj)] : T2D)), ⟨i, mem_intRange.mpr ⟨hi1, hi2⟩, rfl⟩, ?_⟩
  exact List.mem_map.mpr ⟨j, mem_intRange.mpr ⟨hj1, hj2⟩, rfl⟩

/-- Core run lemma for `contract_boundary` protecting the single interior
coordinate `(i0, j0)`: with adequate fuel the cyclic loop always reaches
the all-flags break and returns the network with the invariant intact. -/
theorem run_around_single (Lx Ly i0 j0 s : Int)
    (hi2 : i0 ≤ Lx - 2) (hj2 : j0 ≤ Ly - 2) :
    ∀ (fuel pos : Nat) (st : SchedState),
      aroundInv Lx Ly i0 j0 st →
      (allF st = true → 1 ≤ fuel) →
      (allF st = false → 4 * aroundMeasure i0 j0 st + 1 + cSlack st pos ≤ fuel) →
      ∃ st', runAux ⟨Lx, Ly, some [(i0, j0)], s, ['b', 'l', 't', 'r']⟩ fuel pos st =
          .networkR st' ∧ aroundInv Lx Ly i0 j0 st' ∧ allF st' = true := by
  intro fuel
  induction fuel with
  | zero =>
    intro pos st hP hf1 hf0
    exfalso
    cases hA : allF st
    · have := hf0 hA
      omega
    · have := hf1 hA
      omega
  | succ f ih =>
    intro pos st hP hf1 hf0
    have hlet : (⟨Lx, Ly, some [(i0, j0)], s, ['b', 'l', 't', 'r']⟩ :
        BoundaryConfig).sequence.getD
        (pos % (⟨Lx, Ly, some [(i0, j0)], s, ['b', 'l', 't', 'r']⟩ :
          BoundaryConfig).sequence.length) 'b' = dirAt pos := rfl
    rw [runAux_succ, hlet]
    unfold schedIter
    rw [if_pos (dirAt_valid pos)]
    by_cases hca : canAdvance ⟨Lx, Ly, some [(i0, j0)], s, ['b', 'l', 't', 'r']⟩
        (dirAt pos) st = true
    · rw [if_pos hca]
      obtain ⟨hP1, hfl1, hm1, hfd⟩ :=
        around_advance Lx Ly i0 j0 s hi2 hj2 (dirAt pos) st (dirAt_valid pos) hP hca
      have hAf : allF st = false := allF_false_of_flag st (dirAt pos) (dirAt_valid pos) hfd
      have hAf1 : allF (advanceState ⟨Lx, Ly, some [(i0, j0)], s, ['b', 'l', 't', 'r']⟩
          (dirAt pos) st) = false := by
        unfold allF at hAf ⊢
        rw [hfl1]
        exact hAf
      rw [postCheck_some _ [(i0, j0)] _ rfl,
        show (⟨Lx, Ly, some [(i0, j0)], s, ['b', 'l', 't', 'r']⟩ :
          BoundaryConfig).sequence = ['b', 'l', 't', 'r'] from rfl,
        seq4_all, hAf1, if_neg Bool.false_ne_true]
      apply ih (pos + 1) _ hP1
      · intro h
        rw [h] at hAf1
        cases hAf1
      · intro _
        have hms : aroundMeasure i0 j0 (advanceState
            ⟨Lx, Ly, some [(i0, j0)], s, ['b', 'l', 't', 'r']⟩ (dirAt pos) st) + 1 =
            aroundMeasure i0 j0 st := by
          have hflagM : flagM (advanceState
              ⟨Lx, Ly, some [(i0, j0)], s, ['b', 'l', 't', 'r']⟩ (dirAt pos) st) =
              flagM st := by
            unfold flagM
            rw [hfl1]
          unfold aroundMeasure
          omega
        have hsl := cSlack_le_three _ (pos + 1) hAf1
        have hnum := hf0 hAf
        omega
    · rw [if_neg hca]
      have hP1 : aroundInv Lx Ly i0 j0 (stallState (dirAt pos) st) :=
        around_stall Lx Ly i0 j0 s (dirAt pos) st (dirAt_valid pos) hP hca
      rw [postCheck_some _ [(i0, j0)] _ rfl,
        show (⟨Lx, Ly, some [(i0, j0)], s, ['b', 'l', 't', 'r']⟩ :
          BoundaryConfig).sequence = ['b', 'l', 't', 'r'] from rfl,
        seq4_all]
      cases hA1 : allF (stallState (dirAt pos) st) with
      | true =>
        rw [if_pos rfl]
        exact ⟨stallState (dirAt pos) st, rfl, hP1, hA1⟩
      | false =>
        rw [if_neg Bool.false_ne_true]
        by_cases hfd : st.flags (dirAt pos) = true
        · have hself : stallState (dirAt pos) st = st :=
            stallState_eq_self (dirAt pos) st hfd
          rw [hself]
          have hAfst : allF st = false := by
            rw [← hself]
            exact hA1
          apply ih (pos + 1) st hP
          · intro h
            rw [h] at hAfst
            cases hAfst
          · intro _
            have hss := cSlack_succ_of_flag st pos hfd hAfst
            have hpos := cSlack_pos st pos hfd
            have hnum := hf0 hAfst
            omega
        · have hfdf : st.flags (dirAt pos) = false := by
            cases h : st.flags (dirAt pos)
            · rfl
            · exact absurd h hfd
          have hAf : allF st = false :=
            allF_false_of_flag st (dirAt pos) (dirAt_valid pos) hfdf
          have hflagM : flagM (stallState (dirAt pos) st) + 1 = flagM st :=
            flagM_stall (dirAt pos) st (dirAt_valid pos) hfdf
          have hfrM : frM i0 j0 (stallState (dirAt pos) st) = frM i0 j0 st := rfl
          apply ih (pos + 1) _ hP1
          · intro h
            rw [h] at hA1
            cases hA1
          · intro _
            have hsl := cSlack_le_three _ (pos + 1) hA1
            have hnum := hf0 hAf
            have hm : aroundMeasure i0 j0 (stallState (dirAt pos) st) + 1 =
                aroundMeasure i0 j0 st := by
              unfold aroundMeasure
              omega
            omega

/-- C2 counterexample: on a 2 by 2 lattice with `around=[(0, 0)]` (a
boundary coordinate) and the default sequence and borders, the sweep
terminates with `bottom = 0`, not `i0 - 1 = -1` as the claim requires of
every lattice and coordinate. -/
theorem c2_counterexample :
    (contract_boundary ⟨2, 2, some [(0, 0)], 1, ['b', 'l', 't', 'r']⟩ none none none none
        (initTN 2 2) 6).frontierOf = some ⟨0, 1, 0, 1⟩ ∧
    ¬((0 : Int) = 0 - 1) := by
  constructor
  · decide
  · decide

/-- C2 (amended): for every lattice and every *interior* coordinate
(`1 ≤ i0 ≤ Lx - 2`, `1 ≤ j0 ≤ Ly - 2`), `contract_boundary` with
`around = [(i0, j0)]`, the default four-direction sequence and default
borders terminates (explicit adequate fuel) with the frontier exactly one
step away from `(i0, j0)` on every side (`bottom = i0 - 1`,
`top = i0 + 1`, `left = j0 - 1`, `right = j0 + 1`), and the tensor at
`(i0, j0)` is still present, uncontracted, in the returned network. -/
theorem c2_protected_region (Lx Ly i0 j0 s : Int)
    (hi1 : 1 ≤ i0) (hi2 : i0 ≤ Lx - 2) (hj1 : 1 ≤ j0) (hj2 : j0 ≤ Ly - 2) :
    ∃ st' : SchedState,
      contract_boundary ⟨Lx, Ly, some [(i0, j0)], s, ['b', 'l', 't', 'r']⟩
          none none none none (initTN Lx Ly) (4 * (Lx + Ly).toNat + 5) =
        .networkR st' ∧
      st'.fr.bottom = i0 - 1 ∧ st'.fr.top = i0 + 1 ∧
      st'.fr.left = j0 - 1 ∧ st'.fr.right = j0 + 1 ∧
      [((i0 : Int), (j0 : Int))] ∈ st'.tn := by
  have hb0 : (initState ⟨Lx, Ly, some [(i0, j0)], s, ['b', 'l', 't', 'r']⟩
      none none none none (initTN Lx Ly)).fr.bottom = 0 := rfl
  have ht0 : (initState ⟨Lx, Ly, some [(i0, j0)], s, ['b', 'l', 't', 'r']⟩
      none none none none (initTN Lx Ly)).fr.top = Lx - 1 := rfl
  have hl0 : (initState ⟨Lx, Ly, some [(i0, j0)], s, ['b', 'l', 't', 'r']⟩
      none none none none (initTN Lx Ly)).fr.left = 0 := rfl
  have hr0 : (initState ⟨Lx, Ly, some [(i0, j0)], s, ['b', 'l', 't', 'r']⟩
      none none none none (initTN Lx Ly)).fr.right = Ly - 1 := rfl
  have hfl0 : ∀ c, (initState ⟨Lx, Ly, some [(i0, j0)], s, ['b', 'l', 't', 'r']⟩
      none none none none (initTN Lx Ly)).flags c = false := fun _ => rfl
  have hP0 : aroundInv Lx Ly i0 j0 (initState ⟨Lx, Ly, some [(i0, j0)], s,
      ['b', 'l', 't', 'r']⟩ none none none none (initTN Lx Ly)) := by
    unfold aroundInv
    rw [hb0, ht0, hl0, hr0, hfl0 'b', hfl0 't', hfl0 'l', hfl0 'r']
    refine ⟨by omega, by omega, fun h => absurd h Bool.false_ne_true, by omega, by omega,
      fun h => absurd h Bool.false_ne_true, by omega, by omega,
      fun h => absurd h Bool.false_ne_true, by omega, by omega,
      fun h => absurd h Bool.false_ne_true, ?_⟩
    exact mem_initTN (by omega) (by omega) (by omega) (by omega)
  have hA0 : allF (initState ⟨Lx, Ly, some [(i0, j0)], s, ['b', 'l', 't', 'r']⟩
      none none none none (initTN Lx Ly)) = false := rfl
  obtain ⟨st', hrun, hP', hA'⟩ :=
    run_around_single Lx Ly i0 j0 s hi2 hj2 (4 * (Lx + Ly).toNat + 5) 0
      (initState ⟨Lx, Ly, some [(i0, j0)], s, ['b', 'l', 't', 'r']⟩
        none none none none (initTN Lx Ly)) hP0
      (fun h => by rw [h] at hA0; cases hA0)
      (fun _ => by
        have hcs : cSlack (initState ⟨Lx, Ly, some [(i0, j0)], s, ['b', 'l', 't', 'r']⟩
            none none none none (initTN Lx Ly)) 0 = 0 := by
          unfold cSlack
          rw [if_pos (hfl0 (dirAt 0))]
        have hfm : flagM (initState ⟨Lx, Ly, some [(i0, j0)], s, ['b', 'l', 't', 'r']⟩
            none none none none (initTN Lx Ly)) = 4 := by
          unfold flagM
          rw [hfl0 'b', hfl0 'l', hfl0 't', hfl0 'r']
          rfl
        have hfrm : frM i0 j0 (initState ⟨Lx, Ly, some [(i0, j0)], s, ['b', 'l', 't', 'r']⟩
            none none none none (initTN Lx Ly)) =
            (i0 - 1).toNat + (Lx - 1 - (i0 + 1)).toNat + (j0 - 1).toNat +
              (Ly - 1 - (j0 + 1)).toNat := by
          unfold frM
          rw [hb0, ht0, hl0, hr0]
          omega
        unfold aroundMeasure
        rw [hcs, hfm, hfrm]
        omega)
  obtain ⟨q1, q2, q3, q4, q5, q6, q7, q8, q9, q10, q11, q12, q13⟩ := hP'
  have hflags : st'.flags 'b' = true ∧ st'.flags 'l' = true ∧ st'.flags 't' = true ∧
      st'.flags 'r' = true := by
    unfold allF at hA'
    simp only [Bool.and_eq_true] at hA'
    exact ⟨hA'.1.1.1, hA'.1.1.2, hA'.1.2, hA'.2⟩
  refine ⟨st', ?_, q3 hflags.1, q6 hflags.2.2.1, q9 hflags.2.1, q12 hflags.2.2.2, q13⟩
  unfold contract_boundary
  rw [if_neg (by simp)]
  exact hrun

/-- Witness for C2 (amended): the 3 by 3 lattice protecting its centre. -/
theorem c2_protected_region_witness :
    ∃ st' : SchedState,
      contract_boundary ⟨3, 3, some [(1, 1)], 1, ['b', 'l', 't', 'r']⟩
          none none none none (initTN 3 3) (4 * ((3 : Int) + 3).toNat + 5) =
        .networkR st' ∧
      st'.fr.bottom = 1 - 1 ∧ st'.fr.top = 1 + 1 ∧
      st'.fr.left = 1 - 1 ∧ st'.fr.right = 1 + 1 ∧
      [((1 : Int), (1 : Int))] ∈ st'.tn :=
  c2_protected_region 3 3 1 1 1 (by decide) (by decide) (by decide) (by decide)

end Quimb2D
